import Mathlib

/-!
Verification model of the `mmp_pdma` physical-channel-multiplexed DMA engine
(Spacemit K1 kernel tree).  Every definition in the `Pdma` namespace is a
shallow embedding of the corresponding C function of the driver; machine
integers are `Nat` with explicit `% 2^32` truncation where a value is stored
into a `u32` hardware-descriptor field.
-/

namespace Pdma

/-! ### Hardware constants (from the driver's #defines) -/

/-- `DCMD_LENGTH 0x01fff` — length mask, max = 8K - 1. -/
def DCMD_LENGTH : Nat := 0x1fff

/-- `PDMA_MAX_DESC_BYTES` is `DCMD_LENGTH` = 8191. -/
def PDMA_MAX_DESC_BYTES : Nat := DCMD_LENGTH

/-- `DCMD_ENDIRQEN BIT(21)` — end-of-chain interrupt enable. -/
def DCMD_ENDIRQEN : Nat := 2 ^ 21

/-- `DDADR_STOP BIT(0)` — stop marker in the next-descriptor pointer. -/
def DDADR_STOP : Nat := 1

/-- Truncation to a `u32` register / descriptor field. -/
def u32 (x : Nat) : Nat := x % 2 ^ 32

/-- `enum dma_transfer_direction`, restricted to the three values the
driver's builders handle (`DMA_MEM_TO_MEM`, `DMA_MEM_TO_DEV`,
`DMA_DEV_TO_MEM`). -/
inductive Dir where
  | memToMem
  | memToDev
  | devToMem
deriving DecidableEq, Repr

/-- `struct mmp_pdma_desc_hw` (32-bit layout): next-descriptor pointer,
source address, target address, command word. -/
structure DescHw where
  ddadr : Nat
  dsadr : Nat
  dtadr : Nat
  dcmd : Nat
deriving DecidableEq, Repr

/-- `struct mmp_pdma_desc_sw`: the hardware record plus the software
bookkeeping the claims need — the descriptor's own DMA address
(`async_tx.phys`), its completion cookie (`async_tx.cookie`), and whether a
client callback is attached to its `async_tx` (only the transaction head
returned by a builder ever gets one). -/
structure DescSw where
  desc : DescHw
  phys : Nat
  cookie : Int
  hasCallback : Bool
deriving DecidableEq, Repr

instance : Inhabited DescHw := ⟨{ ddadr := 0, dsadr := 0, dtadr := 0, dcmd := 0 }⟩

instance : Inhabited DescSw :=
  ⟨{ desc := default, phys := 0, cookie := 0, hasCallback := false }⟩

/-- Length field of a descriptor command word (`dcmd & DCMD_LENGTH`). -/
def lenField (d : DescSw) : Nat := d.desc.dcmd &&& DCMD_LENGTH

/-- End-of-chain interrupt flag of a descriptor (`dcmd & DCMD_ENDIRQEN`). -/
def endIrq (d : DescSw) : Bool := d.desc.dcmd &&& DCMD_ENDIRQEN != 0

/-- Stop marker of a descriptor's next pointer (`ddadr & DDADR_STOP`). -/
def stopFlag (d : DescSw) : Bool := d.desc.ddadr &&& DDADR_STOP != 0

/-! ### Descriptor pool

`dma_pool_zalloc` / `dma_pool_free`: the pool is the list of DMA addresses
still available; allocation pops the head, freeing appends.  A descriptor is
zero-initialised on allocation. -/

/-- `mmp_pdma_alloc_descriptor`: pop one DMA address from the pool, or fail
(`NULL`) when the pool is exhausted. -/
def allocDesc (pool : List Nat) : Option (Nat × List Nat) :=
  match pool with
  | [] => none
  | p :: rest => some (p, rest)

/-- `mmp_pdma_free_desc_list`: return every descriptor of a list to the
pool (`dma_pool_free` of each entry's `async_tx.phys`). -/
def freeDescList (pool : List Nat) (descs : List DescSw) : List Nat :=
  pool ++ descs.map (·.phys)

/-- The two failure modes of a transfer builder.  The C functions return
`NULL` in both cases; the distinction is which return site is taken:
argument checks before the first allocation (`invalidArgument`) versus the
`fail:` label reached when `mmp_pdma_alloc_descriptor` returns `NULL`
(`outOfDescriptors`). -/
inductive BuildErr where
  | invalidArgument
  | outOfDescriptors
deriving DecidableEq, Repr

/-- Result of a builder: the chain (in order) plus the remaining pool, or an
error plus the pool after the `fail:` cleanup. -/
inductive BuildRes where
  | ok (chain : List DescSw) (pool : List Nat)
  | err (e : BuildErr) (pool : List Nat)
deriving DecidableEq, Repr

/-- Result of a builder's allocation loop: the chain built so far, or — on
allocation failure — the descriptors allocated before the failure (the
contents of `first->tx_list` at the `fail:` label) plus the depleted pool. -/
inductive LoopRes where
  | ok (chain : List DescSw) (pool : List Nat)
  | fail (allocated : List DescSw) (pool : List Nat)
deriving DecidableEq, Repr

/-! ### Chain linking

In the C builders each loop iteration stores the new descriptor's DMA
address into the previous descriptor's `ddadr`, and after the loop the last
descriptor gets `ddadr = DDADR_STOP` and `dcmd |= DCMD_ENDIRQEN`.  The final
chain is captured by a link pass over the list of built descriptors. -/

/-- Link a non-cyclic chain: every descriptor's `ddadr` points at its
successor's DMA address; the last descriptor carries the stop marker and the
end-of-chain interrupt flag. -/
def linkChain : List DescSw → List DescSw
  | [] => []
  | [d] =>
      [{ d with desc := { d.desc with
          ddadr := DDADR_STOP
          dcmd := d.desc.dcmd ||| DCMD_ENDIRQEN } }]
  | d :: d2 :: rest =>
      { d with desc := { d.desc with ddadr := d2.phys } } :: linkChain (d2 :: rest)

/-- Link a cyclic ring: every descriptor's `ddadr` points at its successor,
and the last descriptor's `ddadr` wraps to `firstPhys` (the first
descriptor's DMA address).  No command-word change at the end — the cyclic
builder already set `DCMD_ENDIRQEN` on every descriptor. -/
def linkRing (firstPhys : Nat) : List DescSw → List DescSw
  | [] => []
  | [d] => [{ d with desc := { d.desc with ddadr := firstPhys } }]
  | d :: d2 :: rest =>
      { d with desc := { d.desc with ddadr := d2.phys } } :: linkRing firstPhys (d2 :: rest)

/-! ### Flat-copy builder (`mmp_pdma_prep_memcpy`) -/

/-- Source-address field stored by `mmp_pdma_prep_memcpy` for one
descriptor: `dma_src & 0xffffffff` for the memory-to-memory and
memory-to-device cases, `dma_src` (truncated into the `u32` field) for
device-to-memory. -/
def memcpySrcField (_dir : Dir) (src : Nat) : Nat := u32 src

/-- Target-address field stored by `mmp_pdma_prep_memcpy` for one
descriptor. -/
def memcpyDstField (_dir : Dir) (dst : Nat) : Nat := u32 dst

/-- Per-iteration source-address advance of the memcpy loop:
`dma_src += copy` except in the device-to-memory case. -/
def advSrc (dir : Dir) (src copy : Nat) : Nat :=
  match dir with
  | .devToMem => src
  | _ => src + copy

/-- Per-iteration target-address advance of the memcpy loop:
`dma_dst += copy` except in the memory-to-device case. -/
def advDst (dir : Dir) (dst copy : Nat) : Nat :=
  match dir with
  | .memToDev => dst
  | _ => dst + copy

/-- The `do { ... } while (len)` allocation loop of `mmp_pdma_prep_memcpy`.
Each iteration allocates a descriptor, gives it
`dcmd = chan->dcmd | (DCMD_LENGTH & copy)` with `copy = min(len,
PDMA_MAX_DESC_BYTES)`, stores the direction-dependent address fields, and
advances `len`, `dma_src`, `dma_dst`.  The `fuel` argument is a structural
bound on the iteration count; the wrapper passes `len`, which suffices
because every iteration consumes at least one byte. -/
def memcpyLoop (dcmd0 : Nat) (dir : Dir) :
    Nat → Nat → Nat → Nat → List Nat → LoopRes
  | 0, _, _, _, pool => .fail [] pool
  | fuel + 1, dst, src, len, pool =>
    match allocDesc pool with
    | none => .fail [] pool
    | some (p, pool') =>
      let copy := min len PDMA_MAX_DESC_BYTES
      let d : DescSw :=
        { desc := { ddadr := 0, dsadr := memcpySrcField dir src
                    dtadr := memcpyDstField dir dst
                    dcmd := dcmd0 ||| (DCMD_LENGTH &&& copy) }
          phys := p, cookie := 0, hasCallback := false }
      let len' := len - copy
      if len' = 0 then .ok [d] pool'
      else
        match memcpyLoop dcmd0 dir fuel (advDst dir dst copy) (advSrc dir src copy) len' pool' with
        | .ok rest pool'' => .ok (d :: rest) pool''
        | .fail allocated pool'' => .fail (d :: allocated) pool''

/-- `mmp_pdma_prep_memcpy`: reject `len == 0`; otherwise run the allocation
loop and link the chain (last descriptor: stop marker plus end-of-chain
interrupt).  On allocation failure free every descriptor built so far back
to the pool (`fail:` label).  The head descriptor of the returned chain is
the transaction the client receives (`&first->async_tx`), so it is the one
that can carry the client callback. -/
def mmp_pdma_prep_memcpy (dcmd0 : Nat) (dir : Dir) (dst src len : Nat)
    (pool : List Nat) : BuildRes :=
  if len = 0 then .err .invalidArgument pool
  else
    match memcpyLoop dcmd0 dir len dst src len pool with
    | .ok chain pool' =>
        .ok (linkChain chain) pool'
    | .fail allocated pool' =>
        .err .outOfDescriptors (freeDescList pool' allocated)

/-! ### Scatter-gather builder (`mmp_pdma_prep_slave_sg`)

The C loop reads each segment's address from the loop variable `sg` but its
length from `sgl` — the *head* of the scatterlist — so every segment is
split according to the first segment's length.  The embedding reproduces
this faithfully: the inner loop always starts from `sg_dma_len(sgl)`. -/

/-- One scatterlist entry: DMA address and length. -/
structure SgEnt where
  addr : Nat
  len : Nat
deriving DecidableEq, Repr

/-- Address fields stored by `mmp_pdma_prep_slave_sg` for one descriptor:
memory-to-device uses (`addr & 0xffffffff`, `chan->dev_addr`);
device-to-memory uses (`chan->dev_addr`, `addr & 0xffffffff`).  `none` for
the unsupported memory-to-memory direction (the `else` error branch). -/
def sgAddrFields (dir : Dir) (devAddr addr : Nat) : Option (Nat × Nat) :=
  match dir with
  | .memToDev => some (u32 addr, devAddr)
  | .devToMem => some (devAddr, u32 addr)
  | .memToMem => none

/-- The inner `do { ... } while (avail)` loop of `mmp_pdma_prep_slave_sg`
for one segment.  `fuel` bounds the iterations; the wrapper passes
`avail + 1`, enough because the body runs once even for `avail = 0` and
otherwise consumes at least one byte per iteration. -/
def sgSegLoop (dcmd0 : Nat) (dir : Dir) (devAddr : Nat) :
    Nat → Nat → Nat → List Nat → LoopRes
  | 0, _, _, pool => .fail [] pool
  | fuel + 1, addr, avail, pool =>
    let len := min avail PDMA_MAX_DESC_BYTES
    match allocDesc pool with
    | none => .fail [] pool
    | some (p, pool') =>
      match sgAddrFields dir devAddr addr with
      | none =>
          -- wrong-direction branch: `goto fail` before the descriptor is
          -- put on `tx_list`, so `new` is not freed by the cleanup
          .fail [] pool'
      | some (sa, ta) =>
        let d : DescSw :=
          { desc := { ddadr := 0, dsadr := sa, dtadr := ta
                      dcmd := dcmd0 ||| (DCMD_LENGTH &&& len) }
            phys := p, cookie := 0, hasCallback := false }
        let avail' := avail - len
        if avail' = 0 then .ok [d] pool'
        else
          match sgSegLoop dcmd0 dir devAddr fuel (addr + len) avail' pool' with
          | .ok rest pool'' => .ok (d :: rest) pool''
          | .fail allocated pool'' => .fail (d :: allocated) pool''

/-- The outer `for_each_sg` loop.  For each entry the address comes from
the current segment, while the length is always `sg_dma_len(sgl)` —
`firstLen`, the first segment's length (the driver's slip). -/
def sgOuterLoop (dcmd0 : Nat) (dir : Dir) (devAddr firstLen : Nat) :
    List SgEnt → List Nat → LoopRes
  | [], pool => .ok [] pool
  | sg :: rest, pool =>
    match sgSegLoop dcmd0 dir devAddr (firstLen + 1) sg.addr firstLen pool with
    | .fail allocated pool' => .fail allocated pool'
    | .ok descs pool' =>
      match sgOuterLoop dcmd0 dir devAddr firstLen rest pool' with
      | .ok descs' pool'' => .ok (descs ++ descs') pool''
      | .fail allocated pool'' => .fail (descs ++ allocated) pool''

/-- `mmp_pdma_prep_slave_sg`: reject a `NULL`/empty scatterlist; otherwise
split every segment (using the first segment's length, as the code does),
concatenate all sub-chains, and link: only the last descriptor of the whole
chain gets `DDADR_STOP` and `DCMD_ENDIRQEN`.  `dcmd0` and `devAddr` are the
values `mmp_pdma_config_write` left in `chan->dcmd` / `chan->dev_addr` for
the requested direction. -/
def mmp_pdma_prep_slave_sg (dcmd0 : Nat) (dir : Dir) (devAddr : Nat)
    (sgl : List SgEnt) (pool : List Nat) : BuildRes :=
  match sgl with
  | [] => .err .invalidArgument pool
  | sg0 :: _ =>
    match sgOuterLoop dcmd0 dir devAddr sg0.len sgl pool with
    | .ok chain pool' => .ok (linkChain chain) pool'
    | .fail allocated pool' => .err .outOfDescriptors (freeDescList pool' allocated)

/-! ### Cyclic builder (`mmp_pdma_prep_dma_cyclic`) -/

/-- The `do { ... } while (len)` loop of `mmp_pdma_prep_dma_cyclic`: one
descriptor per period, `dcmd = chan->dcmd | DCMD_ENDIRQEN |
(DCMD_LENGTH & period_len)`, the memory-side address advancing by
`period_len` each iteration.  `fuel` bounds the iterations; the wrapper
passes `len`. -/
def cyclicLoop (dcmd0 : Nat) (dir : Dir) (periodLen : Nat) :
    Nat → Nat → Nat → Nat → List Nat → LoopRes
  | 0, _, _, _, pool => .fail [] pool
  | fuel + 1, src, dst, len, pool =>
    match allocDesc pool with
    | none => .fail [] pool
    | some (p, pool') =>
      let d : DescSw :=
        { desc := { ddadr := 0, dsadr := src, dtadr := dst
                    dcmd := dcmd0 ||| DCMD_ENDIRQEN ||| (DCMD_LENGTH &&& periodLen) }
          phys := p, cookie := 0, hasCallback := false }
      let len' := len - periodLen
      let src' := if dir = .memToDev then src + periodLen else src
      let dst' := if dir = .memToDev then dst else dst + periodLen
      if len' = 0 then .ok [d] pool'
      else
        match cyclicLoop dcmd0 dir periodLen fuel src' dst' len' pool' with
        | .ok rest pool'' => .ok (d :: rest) pool''
        | .fail allocated pool'' => .fail (d :: allocated) pool''

/-- `mmp_pdma_prep_dma_cyclic`: reject `len == 0`, `period_len == 0`,
`len % period_len != 0`, `period_len > PDMA_MAX_DESC_BYTES`, and the
memory-to-memory direction; otherwise build `len / period_len` descriptors,
every one carrying `DCMD_ENDIRQEN`, and close the ring by pointing the last
descriptor's `ddadr` at the first descriptor's DMA address. -/
def mmp_pdma_prep_dma_cyclic (dcmd0 : Nat) (dir : Dir) (devAddr bufAddr len periodLen : Nat)
    (pool : List Nat) : BuildRes :=
  if len = 0 ∨ periodLen = 0 then .err .invalidArgument pool
  else if len % periodLen ≠ 0 then .err .invalidArgument pool
  else if periodLen > PDMA_MAX_DESC_BYTES then .err .invalidArgument pool
  else
    match dir with
    | .memToMem => .err .invalidArgument pool
    | _ =>
      let src0 := if dir = .memToDev then u32 bufAddr else devAddr
      let dst0 := if dir = .memToDev then devAddr else u32 bufAddr
      match cyclicLoop dcmd0 dir periodLen len src0 dst0 len pool with
      | .ok chain pool' =>
          let firstPhys := (chain.headI).phys
          .ok (linkRing firstPhys chain) pool'
      | .fail allocated pool' =>
          .err .outOfDescriptors (freeDescList pool' allocated)

/-! ### Physical-channel registry (`lookup_phy` and friends)

`bindings` models the `vchan` pointer of each entry of `pdev->phy`:
`bindings[i] = some cid` when physical channel `i` is bound to logical
channel `cid`, `none` when it is free. -/

/-- `struct reserved_chan`: a static request-id → physical-index mapping. -/
structure ReservedChan where
  chan_id : Nat
  drcmr : Nat
deriving DecidableEq, Repr

/-- `is_channel_reserved`: does any reservation-table entry name this
physical index? -/
def is_channel_reserved (reserved : List ReservedChan) (chanId : Nat) : Bool :=
  reserved.any (fun r => r.chan_id == chanId)

/-- `lookup_phy_for_drcmr`: the physical index of the first
reservation-table entry for this request id, when one exists. -/
def lookup_phy_for_drcmr (reserved : List ReservedChan) (drcmr : Nat) : Option Nat :=
  (reserved.find? (fun r => r.drcmr == drcmr)).map (·.chan_id)

/-- The scan order of `lookup_phy`'s nested loop:
`for (prio = 0; prio <= ((n-1) & 0xf) >> 2; prio++)
   for (i = 0; i < n; i++) if (prio != (i & 0xf) >> 2) continue; ...` -/
def bandScanOrder (n : Nat) : List Nat :=
  (List.range (((n - 1) &&& 0xf) >>> 2 + 1)).flatMap
    (fun prio => (List.range n).filter (fun i => (i &&& 0xf) >>> 2 == prio))

/-- `lookup_phy`: a request id with a reservation entry binds exactly its
configured physical index, succeeding only when that index is free
(a taken reserved index fails without falling back to the search);
otherwise scan the priority bands for the first free, non-reserved
physical channel.  Returns the physical index to bind, or `none`. -/
def lookup_phy (n : Nat) (reserved : List ReservedChan)
    (bindings : List (Option Nat)) (drcmr : Nat) : Option Nat :=
  match lookup_phy_for_drcmr reserved drcmr with
  | some cid => if bindings.getD cid none = none then some cid else none
  | none =>
      (bandScanOrder n).find?
        (fun i => !is_channel_reserved reserved i && (bindings.getD i none).isNone)

/-! ### Logical-channel state machine

`Chan` models `struct mmp_pdma_chan` (the fields the claims touch), `Sys`
one `struct mmp_pdma_device` with its channels and the registry.  Hardware
effects are recorded in the channel: `programmed` is the descriptor-chain
base address written by `set_desc`, `hwRun` the `DCSR_RUN` state toggled by
`enable_chan` / `disable_chan`.  `log` records, in invocation order, the
cookies of the descriptors whose client callback the completion engine
invoked (`dmaengine_desc_callback_invoke` only calls a callback that is
actually attached). -/

/-- `enum dma_status`, restricted to the values this driver stores. -/
inductive Status where
  | complete
  | inProgress
  | paused
deriving DecidableEq, Repr

/-- `struct mmp_pdma_chan`. -/
structure Chan where
  status : Status
  pending : List DescSw
  running : List DescSw
  phy : Option Nat
  drcmr : Nat
  dir : Dir
  cookieCtr : Int
  cyclicFirst : Option DescSw
  bytesResidue : Nat
  programmed : Option Nat
  hwRun : Bool
  log : List Int
deriving DecidableEq, Repr

/-- A fresh channel as `mmp_pdma_chan_init` leaves it. -/
def Chan.init (drcmr : Nat) : Chan :=
  { status := .complete, pending := [], running := [], phy := none
    drcmr := drcmr, dir := .memToMem, cookieCtr := 0, cyclicFirst := none
    bytesResidue := 0, programmed := none, hwRun := false, log := [] }

/-- One `struct mmp_pdma_device`: the logical channels, the registry
(`phy[i].vchan`, as logical-channel indices), and the reservation table. -/
structure Sys where
  chans : List Chan
  bindings : List (Option Nat)
  reserved : List ReservedChan
deriving DecidableEq, Repr

/-- Update logical channel `cid`. -/
def Sys.setChan (s : Sys) (cid : Nat) (c : Chan) : Sys :=
  { s with chans := s.chans.set cid c }

/-- Read logical channel `cid` (channels are only addressed in bounds). -/
def Sys.chan (s : Sys) (cid : Nat) : Chan := s.chans.getD cid (Chan.init 0)

/-- `mmp_pdma_free_phy`: nothing to do without a binding; otherwise clear
the registry slot and the channel's `phy` pointer. -/
def mmp_pdma_free_phy (s : Sys) (cid : Nat) : Sys :=
  let c := s.chan cid
  match c.phy with
  | none => s
  | some i =>
      { s.setChan cid { c with phy := none } with bindings := s.bindings.set i none }

/-- The pending → running move of `start_pending_queue`: descriptors are
moved in order, stopping after the first one whose `ddadr` carries
`DDADR_STOP`.  Returns (moved prefix, remaining pending list). -/
def splitAfterStop : List DescSw → List DescSw × List DescSw
  | [] => ([], [])
  | d :: rest =>
      if stopFlag d then ([d], rest)
      else
        let (t, r) := splitAfterStop rest
        (d :: t, r)

/-- `start_pending_queue`: no-op while a transfer is in flight
(`status == DMA_IN_PROGRESS`); with an empty pending queue, release the
physical channel and return; otherwise acquire a physical channel if none
is bound (giving up unchanged when none is free), move the pending chain
(up to the stop marker) onto the running queue, program the first running
descriptor's address (`set_desc`), start the channel (`enable_chan`), and
mark the channel in progress with a cleared residue. -/
def start_pending_queue (s : Sys) (cid : Nat) : Sys :=
  let c := s.chan cid
  if c.status = .inProgress then s
  else if c.pending.isEmpty then
    mmp_pdma_free_phy s cid
  else
    let acquired : Option (Nat × Sys) :=
      match c.phy with
      | some i => some (i, s)
      | none =>
        match lookup_phy s.bindings.length s.reserved s.bindings c.drcmr with
        | none => none
        | some i => some (i, { s.setChan cid { c with phy := some i } with
                                bindings := s.bindings.set i (some cid) })
    match acquired with
    | none => s
    | some (_, s') =>
      let c' := s'.chan cid
      let (taken, rest) := splitAfterStop c'.pending
      let running' := c'.running ++ taken
      let firstPhys := (running'.headI).phys
      s'.setChan cid { c' with
        pending := rest
        running := running'
        programmed := some firstPhys
        hwRun := true
        status := .inProgress
        bytesResidue := 0 }

/-- `dma_cookie_assign` applied along `desc->tx_list` by
`mmp_pdma_tx_submit`.  Modelled from the spec: `dma_cookie_assign` lives in
the dmaengine core header, not in these sources; the spec says submit
"assigns each descriptor in the chain a monotonically increasing token
(tokens assigned in chain order)", so each descriptor receives the
incremented channel counter. -/
def assignCookies (ctr : Int) : List DescSw → List DescSw × Int
  | [] => ([], ctr)
  | d :: rest =>
      let c := ctr + 1
      let (ds, f) := assignCookies c rest
      ({ d with cookie := c } :: ds, f)

/-- `mmp_pdma_tx_submit`: assign a cookie to every descriptor of the
chain, in chain order, then splice the chain onto the tail of the pending
queue.  Returns the last assigned cookie (the transaction's completion
token). -/
def mmp_pdma_tx_submit (c : Chan) (chain : List DescSw) : Chan × Int :=
  let (descs, ctr') := assignCookies c.cookieCtr chain
  ({ c with pending := c.pending ++ descs, cookieCtr := ctr' }, ctr')

/-! ### Residue calculator (`mmp_pdma_residue`) -/

/-- Memory-side start address of a descriptor for the residue walk:
`dtadr` for device-to-memory, `dsadr` otherwise. -/
def residueStart (dir : Dir) (d : DescSw) : Nat :=
  if dir = .devToMem then d.desc.dtadr else d.desc.dsadr

/-- The `list_for_each_entry` walk of `mmp_pdma_residue` over the running
queue, carrying the accumulated residue and the latched `passed` flag. -/
def residueWalk (cyclic : Bool) (cookie : Int) (dir : Dir) (curr : Nat) :
    List DescSw → Nat → Bool → Nat
  | [], residue, _ => residue
  | sw :: rest, residue, passed =>
      let start := residueStart dir sw
      let len := sw.desc.dcmd &&& DCMD_LENGTH
      let endAddr := start + len
      let inSpan : Bool := decide (start ≤ curr) && decide (curr ≤ endAddr)
      let residue' := if passed then residue + len
        else if inSpan then residue + (endAddr - curr) else residue
      let passed' := passed || (!passed && inSpan)
      if cyclic || !endIrq sw then
        residueWalk cyclic cookie dir curr rest residue' passed'
      else if sw.cookie = cookie then residue'
      else residueWalk cyclic cookie dir curr rest 0 false

/-- `mmp_pdma_residue`: without a bound physical channel return the cached
`bytes_residue`; otherwise read the live position register for the
channel's direction (`DTADR` for device-to-memory, `DSADR` otherwise —
`dtadrReg` / `dsadrReg` are the register values) and walk the running
queue. -/
def mmp_pdma_residue (c : Chan) (dtadrReg dsadrReg : Nat) (cookie : Int) : Nat :=
  match c.phy with
  | none => c.bytesResidue
  | some _ =>
    let curr := if c.dir = .devToMem then dtadrReg else dsadrReg
    residueWalk (c.cyclicFirst.isSome) cookie c.dir curr c.running 0 false

/-! ### Completion engine (`dma_do_tasklet`) -/

/-- The cleanup-collection loop of `dma_do_tasklet`: walk the running
queue, `list_move`-ing each descriptor onto `chain_cleanup` — `list_move`
inserts at the *head*, so the accumulator is built in reverse — and stop
after the first descriptor carrying `DCMD_ENDIRQEN`.  Returns
(the cleanup list in its final order, the remaining running queue). -/
def collectCleanup (acc : List DescSw) :
    List DescSw → List DescSw × List DescSw
  | [] => (acc, [])
  | d :: rest =>
      if endIrq d then (d :: acc, rest)
      else collectCleanup (d :: acc) rest

/-- Cookies of the descriptors whose attached client callback the cleanup
loop invokes, in invocation order (descriptors without a callback attached
invoke nothing). -/
def callbackCookies (cleanup : List DescSw) : List Int :=
  (cleanup.filter (·.hasCallback)).map (·.cookie)

/-- `dma_do_tasklet` for channel `cid`.  `dtadrReg`/`dsadrReg` are the live
hardware position registers sampled by the residue pre-pass.  Steps, as in
the code: return on `DMA_COMPLETE`; cyclic channels only invoke the first
descriptor's callback; otherwise cache the residue of the first
end-of-chain descriptor, move the running queue up to (and including) the
first end-of-chain descriptor onto the cleanup list, recompute the status
from the remaining running queue, restart the pending queue, and finally
run the cleanup descriptors' callbacks in the cleanup list's order. -/
def dma_do_tasklet (s : Sys) (cid : Nat) (dtadrReg dsadrReg : Nat) : Sys :=
  let c := s.chan cid
  if c.status = .complete then s
  else
    match c.cyclicFirst with
    | some d =>
        s.setChan cid { c with log := c.log ++ (if d.hasCallback then [d.cookie] else []) }
    | none =>
      let c1 :=
        match c.running.find? (fun d => endIrq d) with
        | some d => { c with bytesResidue := mmp_pdma_residue c dtadrReg dsadrReg d.cookie }
        | none => c
      let (cleanup, rest) := collectCleanup [] c1.running
      let c2 := { c1 with
        running := rest
        status := if rest.isEmpty then .complete else .inProgress }
      let s2 := s.setChan cid c2
      let s3 := start_pending_queue s2 cid
      let c3 := s3.chan cid
      s3.setChan cid { c3 with log := c3.log ++ callbackCookies cleanup }

/-! ### Pause and terminate -/

/-- `mmp_pdma_pause_chan`: fail without a bound physical channel;
otherwise stop the hardware (`disable_chan`) and set `DMA_PAUSED`. -/
def mmp_pdma_pause_chan (s : Sys) (cid : Nat) : Sys :=
  let c := s.chan cid
  match c.phy with
  | none => s
  | some _ => s.setChan cid { c with hwRun := false, status := .paused }

/-- `mmp_pdma_terminate_all`: stop the hardware, set `DMA_COMPLETE`,
release the physical channel, free both queues without invoking callbacks,
and clear the cached residue. -/
def mmp_pdma_terminate_all (s : Sys) (cid : Nat) : Sys :=
  let c := s.chan cid
  let c1 := { c with hwRun := false, status := .complete }
  let s1 := mmp_pdma_free_phy (s.setChan cid c1) cid
  let c2 := s1.chan cid
  s1.setChan cid { c2 with pending := [], running := [], bytesResidue := 0 }

/-! ### Event traces -/

/-- Client / interrupt events against one engine: submitting a prepared
chain to a channel, `mmp_pdma_issue_pending`, a completion tasklet run
(with the sampled position registers), pause, and terminate. -/
inductive Event where
  | submit (cid : Nat) (chain : List DescSw)
  | issuePending (cid : Nat)
  | tasklet (cid : Nat) (dtadrReg dsadrReg : Nat)
  | pause (cid : Nat)
  | terminate (cid : Nat)
deriving DecidableEq, Repr

/-- One event step.  `mmp_pdma_issue_pending` is `start_pending_queue`
under the channel lock (the qos bookkeeping is power management, outside
this model). -/
def step (s : Sys) : Event → Sys
  | .submit cid chain =>
      let c := s.chan cid
      s.setChan cid (mmp_pdma_tx_submit c chain).1
  | .issuePending cid => start_pending_queue s cid
  | .tasklet cid dt ds => dma_do_tasklet s cid dt ds
  | .pause cid => mmp_pdma_pause_chan s cid
  | .terminate cid => mmp_pdma_terminate_all s cid

/-- Run a trace of events. -/
def runTrace (s : Sys) (events : List Event) : Sys :=
  events.foldl step s

/-! ### Per-channel interrupt handler (`mmp_pdma_chan_handler`)

The handler's observable actions are modelled explicitly so that safety is
checkable: register writes and tasklet schedules are logged, and touching
the tasklet of an absent `vchan` binding (`phy->vchan == NULL`) is a null
dereference. -/

/-- What an interrupt-handler run did. -/
inductive IrqAction where
  | writeDcsr (idx : Nat) (value : Nat)
  | scheduleTasklet (cid : Nat)
deriving DecidableEq, Repr

/-- Outcome of `mmp_pdma_chan_handler`: the C return value, or a null
dereference of the absent `vchan` binding. -/
inductive IrqOutcome where
  | irqNone
  | irqHandled
  | nullDeref
deriving DecidableEq, Repr

/-- The per-physical-channel view the handler reads: the shared `DINT`
status register, this channel's `DCSR` register, and the `vchan` binding
(the bound logical channel's id, when any). -/
structure PhyIrqView where
  idx : Nat
  dint : Nat
  dcsr : Nat
  vchan : Option Nat
deriving DecidableEq, Repr

/-- `clear_chan_irq`: when this channel's `DINT` bit is clear return
`-EAGAIN` having done nothing; otherwise write the read `DCSR` value back
(clearing the interrupt) and return 0. -/
def clear_chan_irq (v : PhyIrqView) : Bool × List IrqAction :=
  if v.dint &&& 2 ^ v.idx = 0 then (false, [])
  else (true, [.writeDcsr v.idx v.dcsr])

/-- `mmp_pdma_chan_handler`: bail out (`IRQ_NONE`) when `clear_chan_irq`
reports `-EAGAIN`; otherwise schedule the bound channel's tasklet under an
`if (pchan)` guard — and then schedule `phy->vchan->tasklet` again
*unconditionally*, which dereferences a null `vchan` when no logical
channel is bound. -/
def mmp_pdma_chan_handler (v : PhyIrqView) : IrqOutcome × List IrqAction :=
  let (cleared, acts) := clear_chan_irq v
  if !cleared then (.irqNone, acts)
  else
    match v.vchan with
    | some cid => (.irqHandled, acts ++ [.scheduleTasklet cid, .scheduleTasklet cid])
    | none => (.nullDeref, acts)

/-! ## Helper lemmas -/

/-- The descriptor the memcpy loop builds at position `i` of the chain,
before linking: all preceding descriptors consumed `PDMA_MAX_DESC_BYTES`
each. -/
def memcpyDescAt (dcmd0 : Nat) (dir : Dir) (dst src len : Nat)
    (pool : List Nat) (i : Nat) : DescSw :=
  { desc := { ddadr := 0
              dsadr := u32 (advSrc dir src (i * PDMA_MAX_DESC_BYTES))
              dtadr := u32 (advDst dir dst (i * PDMA_MAX_DESC_BYTES))
              dcmd := dcmd0 ||| (DCMD_LENGTH &&&
                min (len - i * PDMA_MAX_DESC_BYTES) PDMA_MAX_DESC_BYTES) }
    phys := pool.getD i 0, cookie := 0, hasCallback := false }

/-- Number of descriptors the flat-copy builder produces:
`ceil (len / PDMA_MAX_DESC_BYTES)`. -/
def memcpyDescCount (len : Nat) : Nat :=
  (len + (PDMA_MAX_DESC_BYTES - 1)) / PDMA_MAX_DESC_BYTES

/-- The descriptor the cyclic loop builds at position `i` of the ring. -/
def cyclicDescAt (dcmd0 : Nat) (dir : Dir) (periodLen src dst : Nat)
    (pool : List Nat) (i : Nat) : DescSw :=
  { desc := { ddadr := 0
              dsadr := if dir = .memToDev then src + i * periodLen else src
              dtadr := if dir = .memToDev then dst else dst + i * periodLen
              dcmd := dcmd0 ||| DCMD_ENDIRQEN ||| (DCMD_LENGTH &&& periodLen) }
    phys := pool.getD i 0, cookie := 0, hasCallback := false }

/-- The scan order the claim describes: four priority bands
`(index & 0xF) >> 2` taken low-to-high, indices ascending within each
band, over the 32 hardware channels. -/
def claimOrder : List Nat :=
  (List.range 4).flatMap
    (fun p => (List.range 32).filter (fun i => (i &&& 0xf) >>> 2 == p))

/-- A concrete one-channel engine with a two-descriptor chain pending
(the second descriptor stop-marked), one free physical channel and no
reservations. -/
def c5Sys : Sys :=
  { chans := [{ Chan.init 5 with pending :=
      [{ desc := { ddadr := 64, dsadr := 0, dtadr := 0, dcmd := 100 }
         phys := 32, cookie := 1, hasCallback := true },
       { desc := { ddadr := 1, dsadr := 0, dtadr := 0, dcmd := 2097252 }
         phys := 64, cookie := 2, hasCallback := false }] }]
    bindings := [none], reserved := [] }

def ChainShape (ch : List DescSw) : Prop :=
  ch ≠ [] ∧
  (∀ i, i + 1 < ch.length →
    endIrq (ch.getD i default) = false ∧ stopFlag (ch.getD i default) = false) ∧
  endIrq (ch.getD (ch.length - 1) default) = true ∧
  stopFlag (ch.getD (ch.length - 1) default) = true ∧
  (∀ i, 0 < i → i < ch.length → (ch.getD i default).hasCallback = false)

/-- The cookies an observer can order: the callback log followed by the
cookies still queued (running then pending). -/
def totalCookies (c : Chan) : List Int :=
  c.log ++ (c.running ++ c.pending).map (·.cookie)

/-- Per-channel invariant: both queues decompose into builder-shaped
chains, the log followed by the queued cookies is strictly increasing and
bounded by the cookie counter, and the channel is not cyclic. -/
def ChanInv (c : Chan) : Prop :=
  (∃ rcs : List (List DescSw), c.running = rcs.flatten ∧ ∀ ch ∈ rcs, ChainShape ch) ∧
  (∃ pcs : List (List DescSw), c.pending = pcs.flatten ∧ ∀ ch ∈ pcs, ChainShape ch) ∧
  List.Pairwise (· < ·) (totalCookies c) ∧
  (∀ x ∈ totalCookies c, x ≤ c.cookieCtr) ∧
  c.cyclicFirst = none

/-- The logical channel an event addresses. -/
def Event.chanId : Event → Nat
  | .submit c _ => c
  | .issuePending c => c
  | .tasklet c _ _ => c
  | .pause c => c
  | .terminate c => c

/-- Trace validity: submitted chains are builder-shaped. -/
def ValidEvent : Event → Prop
  | .submit _ chain => ChainShape chain
  | _ => True

/-- The state of the engine in the middle of `dma_do_tasklet`, after the
residue pre-pass (cached residue `B`) and the cleanup collection (remaining
running queue `RS`), with the status recomputed. -/
def taskletMid (s : Sys) (cid : Nat) (B : Nat) (RS : List DescSw) : Sys :=
  s.setChan cid { s.chan cid with
    running := RS
    status := if RS.isEmpty then Status.complete else Status.inProgress
    bytesResidue := B }

/-- The final state of `dma_do_tasklet` on a non-complete, non-cyclic
channel: restart the pending queue from the mid state, then log the
cleanup-list callbacks. -/
def taskletOut (s : Sys) (cid : Nat) (B : Nat) (CL RS : List DescSw) : Sys :=
  (start_pending_queue (taskletMid s cid B RS) cid).setChan cid
    { (start_pending_queue (taskletMid s cid B RS) cid).chan cid with
      log := ((start_pending_queue (taskletMid s cid B RS) cid).chan cid).log
        ++ callbackCookies CL }

/-- A single-descriptor chain as the memcpy builder would hand it to the
client: end-of-chain interrupt and stop marker set, length 100, with a
client callback attached. -/
def c6Desc : DescSw :=
  { desc := { ddadr := 1, dsadr := 0, dtadr := 0, dcmd := 2097252 }
    phys := 32, cookie := 0, hasCallback := true }

/-- A one-channel engine with one free physical channel. -/
def c6Sys : Sys :=
  { chans := [Chan.init 5], bindings := [none], reserved := [] }

/-- Submit a one-descriptor chain, issue it, complete it. -/
def c6Events : List Event :=
  [.submit 0 [c6Desc], .issuePending 0, .tasklet 0 0 0]

/-- The claim's per-channel invariant, with the status clause: a non-empty
running queue means the channel is `InProgress` and holds a physical
channel.  (`phy` is the single `chan->phy` slot, so "at most one physical
channel bound" is structural in the state.) -/
def RunInv (c : Chan) : Prop :=
  c.running ≠ [] → c.status = .inProgress ∧ c.phy ≠ none

/-- A one-channel engine mid-transfer: one running descriptor, status
`InProgress`, physical channel 0 bound. -/
def c8Sys : Sys :=
  { chans := [{ Chan.init 5 with running := [{ c6Desc with cookie := 1 }], status := .inProgress, phy := some 0 }]
    bindings := [some 0], reserved := [] }

section BitHelpers

/-- A value below `2^n` has no bit `n`, so masking with `2^n` gives zero. -/
theorem land_two_pow_eq_zero_of_lt {x n : Nat} (h : x < 2 ^ n) : x &&& 2 ^ n = 0 := by
  apply Nat.eq_of_testBit_eq
  intro i
  simp only [Nat.testBit_and, Nat.zero_testBit, Nat.testBit_two_pow]
  rcases eq_or_ne n i with rfl | hne
  · simp [Nat.testBit_lt_two_pow h]
  · simp [hne]

/-- Masking a disjunction distributes; both zero parts vanish. -/
theorem lor_land_eq_zero {a b m : Nat} (ha : a &&& m = 0) (hb : b &&& m = 0) :
    (a ||| b) &&& m = 0 := by
  rw [Nat.and_distrib_right, ha, hb]
  rfl

/-- Setting bit `n` with `|||` makes the `&&& 2^n` mask non-zero. -/
theorem lor_two_pow_land_ne_zero (x n : Nat) : (x ||| 2 ^ n) &&& 2 ^ n ≠ 0 := by
  intro h
  have := congrArg (fun y => Nat.testBit y n) h
  simp [Nat.testBit_and, Nat.testBit_or, Nat.testBit_two_pow] at this

/-- The low 13-bit length mask ignores bit 21. -/
theorem land_length_lor_endirq (x : Nat) :
    (x ||| DCMD_ENDIRQEN) &&& DCMD_LENGTH = x &&& DCMD_LENGTH := by
  rw [Nat.and_distrib_right]
  have : DCMD_ENDIRQEN &&& DCMD_LENGTH = 0 := by decide
  rw [this, Nat.or_zero]

/-- `DCMD_LENGTH & copy` recovers `copy` when `copy` fits the mask. -/
theorem length_mask_of_le {c : Nat} (h : c ≤ PDMA_MAX_DESC_BYTES) :
    DCMD_LENGTH &&& c = c := by
  rw [Nat.and_comm]
  have : DCMD_LENGTH = 2 ^ 13 - 1 := by decide
  rw [this]
  exact Nat.and_pow_two_sub_one_of_lt_two_pow (by
    have : PDMA_MAX_DESC_BYTES < 2 ^ 13 := by decide
    omega)

/-- Length field of a command word built as `dcmd0 | (DCMD_LENGTH & c)`,
for a base command word with a clear length field. -/
theorem lenField_of_build {dcmd0 c : Nat} (h0 : dcmd0 &&& DCMD_LENGTH = 0)
    (hc : c ≤ PDMA_MAX_DESC_BYTES) :
    (dcmd0 ||| (DCMD_LENGTH &&& c)) &&& DCMD_LENGTH = c := by
  rw [Nat.and_distrib_right, h0, Nat.zero_or, length_mask_of_le hc,
    Nat.and_comm, length_mask_of_le hc]

/-- Bit 21 of a command word built as `dcmd0 | (DCMD_LENGTH & c)` is clear
when it is clear in the base command word. -/
theorem endirq_clear_of_build {dcmd0 c : Nat} (h0 : dcmd0 &&& DCMD_ENDIRQEN = 0) :
    (dcmd0 ||| (DCMD_LENGTH &&& c)) &&& DCMD_ENDIRQEN = 0 := by
  apply lor_land_eq_zero h0
  have hlt : DCMD_LENGTH &&& c < 2 ^ 21 := by
    have : DCMD_LENGTH &&& c ≤ DCMD_LENGTH := by
      rw [Nat.and_comm]
      exact Nat.and_le_right
    have hb : DCMD_LENGTH < 2 ^ 21 := by decide
    omega
  exact land_two_pow_eq_zero_of_lt hlt

end BitHelpers

/-! ### Closed form of the memcpy allocation loop -/

theorem memcpyDescCount_of_le {len : Nat} (h1 : 0 < len)
    (h2 : len ≤ PDMA_MAX_DESC_BYTES) : memcpyDescCount len = 1 := by
  unfold memcpyDescCount
  have hM : PDMA_MAX_DESC_BYTES = 8191 := by decide
  rw [hM] at h2 ⊢
  omega

theorem memcpyDescCount_of_gt {len : Nat} (h : PDMA_MAX_DESC_BYTES < len) :
    memcpyDescCount len = memcpyDescCount (len - PDMA_MAX_DESC_BYTES) + 1 := by
  unfold memcpyDescCount
  have hM : PDMA_MAX_DESC_BYTES = 8191 := by decide
  rw [hM] at h ⊢
  rw [show len + (8191 - 1) = (len - 8191 + (8191 - 1)) + 8191 by omega,
    Nat.add_div_right _ (by norm_num)]

theorem memcpyDescCount_pos {len : Nat} (h : 0 < len) : 0 < memcpyDescCount len := by
  unfold memcpyDescCount
  have hM : PDMA_MAX_DESC_BYTES = 8191 := by decide
  rw [hM]
  omega

/-- Shifting a mapped `range` by one step. -/
theorem range_map_succ_eq {α : Type} (f g : Nat → α) (n : Nat)
    (h : ∀ i, f (i + 1) = g i) :
    (List.range (n + 1)).map f = f 0 :: (List.range n).map g := by
  rw [List.range_succ_eq_map, List.map_cons, List.map_map]
  exact congrArg _ (List.map_congr_left (fun i _ => h i))

/-- One loop iteration shifts the closed-form descriptor index. -/
theorem memcpyDescAt_succ (dcmd0 : Nat) (dir : Dir) (dst src len p : Nat)
    (pool' : List Nat) (i : Nat) :
    memcpyDescAt dcmd0 dir dst src len (p :: pool') (i + 1)
      = memcpyDescAt dcmd0 dir (advDst dir dst PDMA_MAX_DESC_BYTES)
          (advSrc dir src PDMA_MAX_DESC_BYTES) (len - PDMA_MAX_DESC_BYTES) pool' i := by
  have h1 : advSrc dir src ((i + 1) * PDMA_MAX_DESC_BYTES)
      = advSrc dir (advSrc dir src PDMA_MAX_DESC_BYTES) (i * PDMA_MAX_DESC_BYTES) := by
    cases dir <;> simp [advSrc] <;> ring
  have h2 : advDst dir dst ((i + 1) * PDMA_MAX_DESC_BYTES)
      = advDst dir (advDst dir dst PDMA_MAX_DESC_BYTES) (i * PDMA_MAX_DESC_BYTES) := by
    cases dir <;> simp [advDst] <;> ring
  have h3 : len - (i + 1) * PDMA_MAX_DESC_BYTES
      = len - PDMA_MAX_DESC_BYTES - i * PDMA_MAX_DESC_BYTES := by
    have : (i + 1) * PDMA_MAX_DESC_BYTES
        = PDMA_MAX_DESC_BYTES + i * PDMA_MAX_DESC_BYTES := by ring
    omega
  unfold memcpyDescAt
  rw [h1, h2, h3, List.getD_cons_succ]

/-- The closed-form descriptor at index 0. -/
theorem memcpyDescAt_zero (dcmd0 : Nat) (dir : Dir) (dst src len : Nat)
    (pool : List Nat) :
    memcpyDescAt dcmd0 dir dst src len pool 0
      = { desc := { ddadr := 0, dsadr := memcpySrcField dir src
                    dtadr := memcpyDstField dir dst
                    dcmd := dcmd0 ||| (DCMD_LENGTH &&& min len PDMA_MAX_DESC_BYTES) }
          phys := pool.getD 0 0, cookie := 0, hasCallback := false } := by
  unfold memcpyDescAt
  cases dir <;> simp [memcpySrcField, memcpyDstField, advSrc, advDst]

/-- Closed form of `memcpyLoop`: with positive length, enough fuel and a
large enough pool, the loop succeeds and builds exactly the descriptors
`memcpyDescAt 0, 1, …`, consuming one pool slot each. -/
theorem memcpyLoop_eq (dcmd0 : Nat) (dir : Dir) :
    ∀ fuel len dst src pool, 0 < len → len ≤ fuel →
      memcpyDescCount len ≤ pool.length →
      memcpyLoop dcmd0 dir fuel dst src len pool =
        .ok ((List.range (memcpyDescCount len)).map
              (memcpyDescAt dcmd0 dir dst src len pool))
            (pool.drop (memcpyDescCount len)) := by
  intro fuel
  induction fuel with
  | zero => intro len dst src pool h1 h2; omega
  | succ fuel ih =>
    intro len dst src pool h1 h2 h3
    obtain ⟨p, pool', rfl⟩ : ∃ p pool', pool = p :: pool' := by
      cases pool with
      | nil => exfalso; have := memcpyDescCount_pos h1; simp at h3; omega
      | cons p pool' => exact ⟨p, pool', rfl⟩
    rcases le_or_lt len PDMA_MAX_DESC_BYTES with hle | hgt
    · have hcopy : min len PDMA_MAX_DESC_BYTES = len := by omega
      have hnd : memcpyDescCount len = 1 := memcpyDescCount_of_le h1 hle
      simp only [memcpyLoop, allocDesc, hcopy, Nat.sub_self, if_true, hnd]
      rw [show (1 : Nat) = 0 + 1 from rfl, List.range_succ, List.range_zero,
        List.nil_append, List.map_cons, List.map_nil, List.drop_succ_cons,
        List.drop_zero, memcpyDescAt_zero]
      rw [hcopy, List.getD_cons_zero]
    · have hcopy : min len PDMA_MAX_DESC_BYTES = PDMA_MAX_DESC_BYTES := by omega
      have hlen' : 0 < len - PDMA_MAX_DESC_BYTES := by omega
      have hM : 0 < PDMA_MAX_DESC_BYTES := by decide
      have hnd := memcpyDescCount_of_gt hgt
      have hih := ih (len - PDMA_MAX_DESC_BYTES) (advDst dir dst PDMA_MAX_DESC_BYTES)
        (advSrc dir src PDMA_MAX_DESC_BYTES) pool' hlen' (by omega)
        (by simp at h3; omega)
      simp only [memcpyLoop, allocDesc, hcopy]
      rw [if_neg (by omega), hih, hnd, List.drop_succ_cons,
        range_map_succ_eq _ _ _ (memcpyDescAt_succ dcmd0 dir dst src len p pool'),
        memcpyDescAt_zero]
      rw [hcopy, List.getD_cons_zero]

/-! ### Elementwise characterisation of `linkChain` -/

/-- `linkChain` element by element: every non-final descriptor's `ddadr`
becomes its successor's DMA address, the final one gets the stop marker and
the end-of-chain interrupt flag; all other fields are untouched. -/
theorem linkChain_getD (l : List DescSw) :
    ∀ i, i < l.length →
      (linkChain l).getD i default =
        (if i + 1 < l.length then
          { l.getD i default with desc :=
              { (l.getD i default).desc with ddadr := (l.getD (i + 1) default).phys } }
        else
          { l.getD i default with desc :=
              { (l.getD i default).desc with
                  ddadr := DDADR_STOP
                  dcmd := (l.getD i default).desc.dcmd ||| DCMD_ENDIRQEN } }) := by
  induction l with
  | nil => intro i h; simp at h
  | cons d rest ih =>
    intro i h
    cases rest with
    | nil =>
      cases i with
      | zero => simp [linkChain]
      | succ i => simp at h
    | cons d2 rest2 =>
      cases i with
      | zero =>
        rw [if_pos (by simp)]
        simp [linkChain]
      | succ i =>
        have h' : i < (d2 :: rest2).length := by simp at h ⊢; omega
        have := ih i h'
        simp only [linkChain, List.getD_cons_succ]
        rw [this]
        by_cases hc : i + 1 < (d2 :: rest2).length
        · rw [if_pos hc, if_pos (by simp at hc ⊢; omega)]
          simp [List.getD_cons_succ]
        · rw [if_neg hc, if_neg (by simp at hc ⊢; omega)]

theorem linkChain_length (l : List DescSw) : (linkChain l).length = l.length := by
  induction l with
  | nil => rfl
  | cons d rest ih =>
    cases rest with
    | nil => rfl
    | cons d2 rest2 => simpa [linkChain] using ih

/-- Linking does not change any descriptor's length field. -/
theorem linkChain_map_lenField (l : List DescSw) :
    (linkChain l).map lenField = l.map lenField := by
  induction l with
  | nil => rfl
  | cons d rest ih =>
    cases rest with
    | nil => simp [linkChain, lenField, land_length_lor_endirq]
    | cons d2 rest2 => simpa [linkChain, lenField] using ih

/-! ### Arithmetic of the splitting rule -/

/-- Partial sums of the per-descriptor lengths: the first `i` descriptors
of a flat copy consume `i * PDMA_MAX_DESC_BYTES` bytes. -/
theorem sum_take_chunks (len : Nat) :
    ∀ i, i < memcpyDescCount len →
      ((List.range i).map
        (fun j => min (len - j * PDMA_MAX_DESC_BYTES) PDMA_MAX_DESC_BYTES)).sum
        = i * PDMA_MAX_DESC_BYTES := by
  intro i
  induction i with
  | zero => intro _; simp
  | succ i ih =>
    intro h
    rw [List.range_succ, List.map_append, List.sum_append,
      ih (by omega)]
    have hM : PDMA_MAX_DESC_BYTES = 8191 := by decide
    have hd : (i + 2) * PDMA_MAX_DESC_BYTES ≤ len + (PDMA_MAX_DESC_BYTES - 1) := by
      have h2 : i + 2 ≤ memcpyDescCount len := by omega
      unfold memcpyDescCount at h2
      exact (Nat.le_div_iff_mul_le (by rw [hM]; norm_num)).mp h2
    rw [hM] at hd ⊢
    simp only [List.map_cons, List.map_nil, List.sum_cons, List.sum_nil]
    omega

/-- The per-descriptor lengths of a flat copy sum to the total length. -/
theorem sum_min_chunks :
    ∀ len, 0 < len →
      ((List.range (memcpyDescCount len)).map
        (fun j => min (len - j * PDMA_MAX_DESC_BYTES) PDMA_MAX_DESC_BYTES)).sum = len := by
  intro len
  induction len using Nat.strong_induction_on with
  | _ len ih =>
    intro hpos
    rcases le_or_lt len PDMA_MAX_DESC_BYTES with hle | hgt
    · rw [memcpyDescCount_of_le hpos hle, show (1 : Nat) = 0 + 1 from rfl,
        List.range_succ, List.range_zero, List.nil_append, List.map_cons,
        List.map_nil, List.sum_cons, List.sum_nil]
      omega
    · have hM : PDMA_MAX_DESC_BYTES = 8191 := by decide
      rw [memcpyDescCount_of_gt hgt,
        range_map_succ_eq _ (fun j =>
          min (len - PDMA_MAX_DESC_BYTES - j * PDMA_MAX_DESC_BYTES) PDMA_MAX_DESC_BYTES) _
          (fun j => by
            rw [show (j + 1) * PDMA_MAX_DESC_BYTES
                = PDMA_MAX_DESC_BYTES + j * PDMA_MAX_DESC_BYTES from by ring,
              Nat.sub_add_eq])]
      rw [List.sum_cons, ih (len - PDMA_MAX_DESC_BYTES) (by rw [hM] at hgt ⊢; omega)
        (by rw [hM] at hgt ⊢; omega)]
      rw [hM] at hgt ⊢
      simp only [Nat.zero_mul, Nat.sub_zero]
      omega

theorem range_map_getD {α : Type} (f : Nat → α) (n i : Nat) (h : i < n) (d : α) :
    ((List.range n).map f).getD i d = f i := by
  rw [List.getD_eq_getElem?_getD, List.getElem?_map, List.getElem?_range h]
  rfl

theorem linkChain_getD_phys (l : List DescSw) (i : Nat) (h : i < l.length) :
    ((linkChain l).getD i default).phys = (l.getD i default).phys := by
  rw [linkChain_getD l i h]; split_ifs <;> rfl

theorem linkChain_getD_dsadr (l : List DescSw) (i : Nat) (h : i < l.length) :
    ((linkChain l).getD i default).desc.dsadr = (l.getD i default).desc.dsadr := by
  rw [linkChain_getD l i h]; split_ifs <;> rfl

theorem linkChain_getD_dtadr (l : List DescSw) (i : Nat) (h : i < l.length) :
    ((linkChain l).getD i default).desc.dtadr = (l.getD i default).desc.dtadr := by
  rw [linkChain_getD l i h]; split_ifs <;> rfl

/-! ## Claim C1 -/

/-- **C1.**  For every `length > 0` (with a base command word whose length
and end-of-chain fields are clear — true of every value
`mmp_pdma_prep_memcpy` or `mmp_pdma_config_write` puts in `chan->dcmd` —
and a pool of at least `ceil(length / PDMA_MAX_DESC_BYTES)` aligned
descriptors), the flat-copy builder returns a chain of exactly
`ceil(length / PDMA_MAX_DESC_BYTES)` descriptors whose length fields sum
exactly to `length`; each descriptor's next pointer is the following
descriptor's DMA address; memory-side addresses advance by the bytes
consumed while the device-side address stays fixed; and only the final
descriptor carries the end-of-chain interrupt flag and the stop sentinel in
its next pointer. -/
theorem claim_C1_prep_memcpy (dcmd0 : Nat) (dir : Dir) (dst src len : Nat)
    (pool : List Nat)
    (hlen : 0 < len)
    (hdcmdLen : dcmd0 &&& DCMD_LENGTH = 0)
    (hdcmdIrq : dcmd0 &&& DCMD_ENDIRQEN = 0)
    (hpool : memcpyDescCount len ≤ pool.length)
    (haligned : ∀ a ∈ pool, a % 2 = 0) :
    ∃ chain pool',
      mmp_pdma_prep_memcpy dcmd0 dir dst src len pool = .ok chain pool' ∧
      chain.length = (len + (PDMA_MAX_DESC_BYTES - 1)) / PDMA_MAX_DESC_BYTES ∧
      (chain.map lenField).sum = len ∧
      (∀ i, i + 1 < chain.length →
        (chain.getD i default).desc.ddadr = (chain.getD (i + 1) default).phys) ∧
      (∀ i, i < chain.length →
        (dir ≠ .devToMem →
          (chain.getD i default).desc.dsadr
            = u32 (src + ((chain.take i).map lenField).sum)) ∧
        (dir = .devToMem →
          (chain.getD i default).desc.dsadr = u32 src) ∧
        (dir ≠ .memToDev →
          (chain.getD i default).desc.dtadr
            = u32 (dst + ((chain.take i).map lenField).sum)) ∧
        (dir = .memToDev →
          (chain.getD i default).desc.dtadr = u32 dst)) ∧
      (∀ i, i + 1 < chain.length → endIrq (chain.getD i default) = false) ∧
      endIrq (chain.getD (chain.length - 1) default) = true ∧
      (∀ i, i + 1 < chain.length → stopFlag (chain.getD i default) = false) ∧
      (chain.getD (chain.length - 1) default).desc.ddadr = DDADR_STOP := by
  have hloop := memcpyLoop_eq dcmd0 dir len len dst src pool hlen le_rfl hpool
  set nd := memcpyDescCount len with hnd
  set raw := (List.range nd).map (memcpyDescAt dcmd0 dir dst src len pool) with hraw
  have hrawlen : raw.length = nd := by simp [hraw]
  have hchainlen : (linkChain raw).length = nd := by
    rw [linkChain_length, hrawlen]
  have hbuild : mmp_pdma_prep_memcpy dcmd0 dir dst src len pool
      = .ok (linkChain raw) (pool.drop nd) := by
    unfold mmp_pdma_prep_memcpy
    rw [if_neg (by omega), hloop]
  -- the length field of each raw descriptor
  have hlenfield : ∀ i, i < nd → lenField (raw.getD i default)
      = min (len - i * PDMA_MAX_DESC_BYTES) PDMA_MAX_DESC_BYTES := by
    intro i hi
    rw [hraw, range_map_getD _ _ _ hi]
    unfold memcpyDescAt lenField
    exact lenField_of_build hdcmdLen (Nat.min_le_right _ _)
  have hmaplen : (linkChain raw).map lenField
      = (List.range nd).map
          (fun j => min (len - j * PDMA_MAX_DESC_BYTES) PDMA_MAX_DESC_BYTES) := by
    rw [linkChain_map_lenField, hraw, List.map_map]
    exact List.map_congr_left (fun i hi => by
      have hi' : i < nd := List.mem_range.mp hi
      have := hlenfield i hi'
      rw [hraw] at this
      rw [range_map_getD _ _ _ hi'] at this
      simpa using this)
  -- partial sums of the length fields
  have htakesum : ∀ i, i < nd →
      (((linkChain raw).take i).map lenField).sum = i * PDMA_MAX_DESC_BYTES := by
    intro i hi
    rw [List.map_take, hmaplen, ← List.map_take, List.take_range,
      show min i nd = i from by omega]
    exact sum_take_chunks len i hi
  refine ⟨linkChain raw, pool.drop nd, hbuild, ?_, ?_, ?_, ?_, ?_, ?_, ?_, ?_⟩
  · rw [hchainlen, hnd]
    rfl
  · rw [hmaplen]
    exact sum_min_chunks len hlen
  · -- chain linkage
    intro i hi1
    rw [hchainlen] at hi1
    have hi : i < raw.length := by omega
    rw [linkChain_getD raw i hi, if_pos (by omega : i + 1 < raw.length)]
    rw [linkChain_getD_phys raw (i + 1) (by omega)]
  · -- addresses
    intro i hi
    rw [hchainlen] at hi
    have hia : i < raw.length := by omega
    have hsrcf : (raw.getD i default).desc.dsadr
        = u32 (advSrc dir src (i * PDMA_MAX_DESC_BYTES)) := by
      rw [hraw, range_map_getD _ _ _ hi]; rfl
    have hdstf : (raw.getD i default).desc.dtadr
        = u32 (advDst dir dst (i * PDMA_MAX_DESC_BYTES)) := by
      rw [hraw, range_map_getD _ _ _ hi]; rfl
    refine ⟨?_, ?_, ?_, ?_⟩
    · intro hdir
      rw [linkChain_getD_dsadr raw i hia, hsrcf, htakesum i hi]
      cases dir with
      | devToMem => exact absurd rfl hdir
      | memToMem => rfl
      | memToDev => rfl
    · intro hdir
      rw [linkChain_getD_dsadr raw i hia, hsrcf, hdir]; rfl
    · intro hdir
      rw [linkChain_getD_dtadr raw i hia, hdstf, htakesum i hi]
      cases dir with
      | memToDev => exact absurd rfl hdir
      | memToMem => rfl
      | devToMem => rfl
    · intro hdir
      rw [linkChain_getD_dtadr raw i hia, hdstf, hdir]; rfl
  · -- no end-of-chain interrupt before the final descriptor
    intro i hi1
    rw [hchainlen] at hi1
    have hia : i < raw.length := by omega
    rw [linkChain_getD raw i hia, if_pos (by omega : i + 1 < raw.length)]
    have hz : (raw.getD i default).desc.dcmd &&& DCMD_ENDIRQEN = 0 := by
      rw [hraw, range_map_getD _ _ _ (by omega : i < nd)]
      exact endirq_clear_of_build hdcmdIrq
    simp only [endIrq]
    rw [show ({ raw.getD i default with desc :=
        { (raw.getD i default).desc with
            ddadr := (raw.getD (i + 1) default).phys } } : DescSw).desc.dcmd
      = (raw.getD i default).desc.dcmd from rfl, hz]
    rfl
  · -- the final descriptor has the end-of-chain interrupt flag
    have hpos : 0 < nd := memcpyDescCount_pos hlen
    rw [hchainlen]
    have hia : nd - 1 < raw.length := by omega
    rw [linkChain_getD raw (nd - 1) hia, if_neg (by rw [hrawlen]; omega)]
    simp only [endIrq]
    have := lor_two_pow_land_ne_zero (raw.getD (nd - 1) default).desc.dcmd 21
    simpa [DCMD_ENDIRQEN] using this
  · -- no stop marker before the final descriptor
    intro i hi1
    rw [hchainlen] at hi1
    have hia : i < raw.length := by omega
    rw [linkChain_getD raw i hia, if_pos (by omega : i + 1 < raw.length)]
    have hphys : (raw.getD (i + 1) default).phys = pool.getD (i + 1) 0 := by
      rw [hraw, range_map_getD _ _ _ (by omega : i + 1 < nd)]; rfl
    have heven : pool.getD (i + 1) 0 % 2 = 0 := by
      rcases lt_or_ge (i + 1) pool.length with hp | hp
      · rw [List.getD_eq_getElem?_getD, List.getElem?_eq_getElem hp]
        exact haligned _ (List.getElem_mem hp)
      · rw [List.getD_eq_getElem?_getD, List.getElem?_eq_none hp]
        rfl
    simp only [stopFlag, hphys, DDADR_STOP]
    rw [Nat.and_one_is_mod, heven]
    rfl
  · -- the final descriptor's next pointer is the stop sentinel
    have hpos : 0 < nd := memcpyDescCount_pos hlen
    rw [hchainlen]
    have hia : nd - 1 < raw.length := by omega
    rw [linkChain_getD raw (nd - 1) hia, if_neg (by rw [hrawlen]; omega)]

/-- Concrete instance of the claim's example scenario: copying 20000 bytes
yields descriptors of 8191, 8191 and 3618 bytes. -/
theorem memcpy_example_20000 :
    ∃ pool', mmp_pdma_prep_memcpy 0xC0030000 Dir.memToMem 0x9000 0x1000 20000
        [32, 64, 96, 128]
      = .ok (linkChain ((List.range 3).map
          (memcpyDescAt 0xC0030000 Dir.memToMem 0x9000 0x1000 20000 [32, 64, 96, 128])))
        pool' := by
  exact ⟨[128], by decide⟩

/-- Witness for C1 at the claim's example input (length 20000, pool of 4). -/
theorem claim_C1_witness :
    ∃ chain pool',
      mmp_pdma_prep_memcpy 0xC0030000 Dir.memToMem 0x9000 0x1000 20000 [32, 64, 96, 128]
        = .ok chain pool' ∧
      chain.length = (20000 + (PDMA_MAX_DESC_BYTES - 1)) / PDMA_MAX_DESC_BYTES ∧
      (chain.map lenField).sum = 20000 := by
  obtain ⟨c, p, h1, h2, h3, -⟩ :=
    claim_C1_prep_memcpy 0xC0030000 .memToMem 0x9000 0x1000 20000 [32, 64, 96, 128]
      (by norm_num) (by decide) (by decide) (by decide) (by decide)
  exact ⟨c, p, h1, h2, h3⟩

/-! ### Closed form of the cyclic allocation loop -/

/-- Bit 21 survives the mask whatever is or-ed around it. -/
theorem lor_mid_two_pow_land_ne_zero (a c n : Nat) :
    (a ||| 2 ^ n ||| c) &&& 2 ^ n ≠ 0 := by
  intro h
  have := congrArg (fun y => Nat.testBit y n) h
  simp [Nat.testBit_and, Nat.testBit_or, Nat.testBit_two_pow] at this

theorem cyclicDescAt_succ (dcmd0 : Nat) (dir : Dir) (periodLen src dst p : Nat)
    (pool' : List Nat) (i : Nat) :
    cyclicDescAt dcmd0 dir periodLen src dst (p :: pool') (i + 1)
      = cyclicDescAt dcmd0 dir periodLen
          (if dir = .memToDev then src + periodLen else src)
          (if dir = .memToDev then dst else dst + periodLen) pool' i := by
  unfold cyclicDescAt
  rw [List.getD_cons_succ]
  cases dir <;> simp <;> ring

/-- Closed form of `cyclicLoop`: for a positive total that is a multiple of
the period, with enough fuel and pool, the loop builds `len / periodLen`
identical period descriptors with advancing memory-side addresses. -/
theorem cyclicLoop_eq (dcmd0 : Nat) (dir : Dir) (periodLen : Nat) (hp : 0 < periodLen) :
    ∀ fuel len src dst pool, 0 < len → len % periodLen = 0 → len ≤ fuel →
      len / periodLen ≤ pool.length →
      cyclicLoop dcmd0 dir periodLen fuel src dst len pool =
        .ok ((List.range (len / periodLen)).map
              (cyclicDescAt dcmd0 dir periodLen src dst pool))
            (pool.drop (len / periodLen)) := by
  intro fuel
  induction fuel with
  | zero => intro len src dst pool h1 h2 h3; omega
  | succ fuel ih =>
    intro len src dst pool h1 h2 h3 h4
    have hge : periodLen ≤ len := Nat.le_of_dvd h1 (Nat.dvd_of_mod_eq_zero h2)
    have hdivpos : 0 < len / periodLen := Nat.div_pos hge hp
    obtain ⟨p, pool', rfl⟩ : ∃ p pool', pool = p :: pool' := by
      cases pool with
      | nil => simp at h4; omega
      | cons p pool' => exact ⟨p, pool', rfl⟩
    rcases eq_or_lt_of_le hge with heq | hgt
    · -- len = periodLen: single iteration
      subst heq
      simp only [cyclicLoop, allocDesc, Nat.sub_self, if_true, Nat.div_self hp]
      rw [show (1 : Nat) = 0 + 1 from rfl, List.range_succ, List.range_zero,
        List.nil_append, List.map_cons, List.map_nil, List.drop_succ_cons,
        List.drop_zero]
      unfold cyclicDescAt
      cases dir <;> simp
    · -- len > periodLen: recurse
      have hlen' : 0 < len - periodLen := by omega
      have hmod' : (len - periodLen) % periodLen = 0 :=
        Nat.mod_eq_zero_of_dvd
          (Nat.dvd_sub' (Nat.dvd_of_mod_eq_zero h2) dvd_rfl)
      have hdiv : len / periodLen = (len - periodLen) / periodLen + 1 := by
        conv_lhs => rw [show len = (len - periodLen) + periodLen from by omega]
        rw [Nat.add_div_right _ hp]
      have hih := ih (len - periodLen)
        (if dir = .memToDev then src + periodLen else src)
        (if dir = .memToDev then dst else dst + periodLen) pool' hlen' hmod'
        (by omega) (by simp at h4; omega)
      simp only [cyclicLoop, allocDesc]
      rw [if_neg (by omega), hih, hdiv, List.drop_succ_cons,
        range_map_succ_eq _ _ _ (cyclicDescAt_succ dcmd0 dir periodLen src dst p pool')]
      unfold cyclicDescAt
      cases dir <;> simp

/-! ### Elementwise characterisation of `linkRing` -/

theorem linkRing_getD (fp : Nat) (l : List DescSw) :
    ∀ i, i < l.length →
      (linkRing fp l).getD i default =
        (if i + 1 < l.length then
          { l.getD i default with desc :=
              { (l.getD i default).desc with ddadr := (l.getD (i + 1) default).phys } }
        else
          { l.getD i default with desc :=
              { (l.getD i default).desc with ddadr := fp } }) := by
  induction l with
  | nil => intro i h; simp at h
  | cons d rest ih =>
    intro i h
    cases rest with
    | nil =>
      cases i with
      | zero => simp [linkRing]
      | succ i => simp at h
    | cons d2 rest2 =>
      cases i with
      | zero =>
        rw [if_pos (by simp)]
        simp [linkRing]
      | succ i =>
        have h' : i < (d2 :: rest2).length := by simp at h ⊢; omega
        have := ih i h'
        simp only [linkRing, List.getD_cons_succ]
        rw [this]
        by_cases hc : i + 1 < (d2 :: rest2).length
        · rw [if_pos hc, if_pos (by simp at hc ⊢; omega)]
          simp [List.getD_cons_succ]
        · rw [if_neg hc, if_neg (by simp at hc ⊢; omega)]

theorem linkRing_length (fp : Nat) (l : List DescSw) :
    (linkRing fp l).length = l.length := by
  induction l with
  | nil => rfl
  | cons d rest ih =>
    cases rest with
    | nil => rfl
    | cons d2 rest2 => simpa [linkRing] using ih

theorem linkRing_getD_phys (fp : Nat) (l : List DescSw) (i : Nat) (h : i < l.length) :
    ((linkRing fp l).getD i default).phys = (l.getD i default).phys := by
  rw [linkRing_getD fp l i h]; split_ifs <;> rfl

theorem linkRing_getD_dcmd (fp : Nat) (l : List DescSw) (i : Nat) (h : i < l.length) :
    ((linkRing fp l).getD i default).desc.dcmd = (l.getD i default).desc.dcmd := by
  rw [linkRing_getD fp l i h]; split_ifs <;> rfl

/-- Generic success case of the cyclic builder, for any direction whose
match arm reduces to the allocation loop with initial addresses
`src0`/`dst0`. -/
theorem cyclic_ok_generic (dcmd0 : Nat) (dir : Dir)
    (devAddr bufAddr len periodLen : Nat) (pool : List Nat) (src0 dst0 : Nat)
    (hp : 0 < periodLen) (hlen : 0 < len) (hmod : len % periodLen = 0)
    (hpool : len / periodLen ≤ pool.length)
    (hbuild : mmp_pdma_prep_dma_cyclic dcmd0 dir devAddr bufAddr len periodLen pool
        = (match cyclicLoop dcmd0 dir periodLen len src0 dst0 len pool with
           | .ok chain pool' => BuildRes.ok (linkRing chain.headI.phys chain) pool'
           | .fail allocated pool' =>
               .err .outOfDescriptors (freeDescList pool' allocated))) :
    ∃ chain pool',
      mmp_pdma_prep_dma_cyclic dcmd0 dir devAddr bufAddr len periodLen pool
        = .ok chain pool' ∧
      chain.length = len / periodLen ∧
      (∀ i, i < chain.length → endIrq (chain.getD i default) = true) ∧
      (chain.getD (chain.length - 1) default).desc.ddadr
        = (chain.getD 0 default).phys := by
  have hloop := cyclicLoop_eq dcmd0 dir periodLen hp len len src0 dst0 pool
    hlen hmod le_rfl hpool
  set nd := len / periodLen with hnddef
  have hndpos : 0 < nd :=
    Nat.div_pos (Nat.le_of_dvd hlen (Nat.dvd_of_mod_eq_zero hmod)) hp
  set raw := (List.range nd).map (cyclicDescAt dcmd0 dir periodLen src0 dst0 pool)
    with hraw
  have hrawlen : raw.length = nd := by simp [hraw]
  have hfirstphys : raw.headI.phys = (raw.getD 0 default).phys := by
    cases hr : raw with
    | nil => rw [hr] at hrawlen; simp at hrawlen; omega
    | cons a l => simp [List.headI, List.getD_cons_zero]
  have hbuild2 : mmp_pdma_prep_dma_cyclic dcmd0 dir devAddr bufAddr len periodLen pool
      = .ok (linkRing raw.headI.phys raw) (pool.drop nd) := by
    rw [hbuild, hloop]
  have hchainlen : (linkRing raw.headI.phys raw).length = nd := by
    rw [linkRing_length, hrawlen]
  refine ⟨_, _, hbuild2, hchainlen, ?_, ?_⟩
  · intro i hi
    rw [hchainlen] at hi
    have hia : i < raw.length := by omega
    simp only [endIrq]
    rw [linkRing_getD_dcmd _ raw i hia, hraw,
      range_map_getD _ _ _ (by omega : i < nd)]
    unfold cyclicDescAt
    simp only
    have := lor_mid_two_pow_land_ne_zero dcmd0 (DCMD_LENGTH &&& periodLen) 21
    simpa [DCMD_ENDIRQEN] using this
  · rw [hchainlen]
    have hia : nd - 1 < raw.length := by omega
    rw [linkRing_getD _ raw (nd - 1) hia, if_neg (by rw [hrawlen]; omega),
      linkRing_getD_phys _ raw 0 (by omega), hfirstphys]

/-! ## Claim C2 -/

/-- **C2, counterexample.**  A cyclic request of total length 0 and period
1024 satisfies the claim's guard (`0 % 1024 = 0` and `1024 ≤
PDMA_MAX_DESC_BYTES`), so the claim as stated demands
`0 / 1024 = 0` descriptors; the builder instead rejects it with
`InvalidArgument` (`if (!dchan || !len || !period_len) return NULL`). -/
theorem claim_C2_counterexample :
    (0 % 1024 = 0 ∧ 1024 ≤ PDMA_MAX_DESC_BYTES) ∧
    mmp_pdma_prep_dma_cyclic 0x10004000 Dir.memToDev 0x5000 0x1000 0 1024 [32, 64]
      = .err .invalidArgument [32, 64] ∧
    ∀ chain pool',
      mmp_pdma_prep_dma_cyclic 0x10004000 Dir.memToDev 0x5000 0x1000 0 1024 [32, 64]
        ≠ .ok chain pool' := by
  refine ⟨by decide, by decide, ?_⟩
  intro chain pool' h
  rw [show mmp_pdma_prep_dma_cyclic 0x10004000 Dir.memToDev 0x5000 0x1000 0 1024 [32, 64]
      = .err .invalidArgument [32, 64] from by decide] at h
  exact BuildRes.noConfusion h

/-- **C2, amended.**  For a cyclic request in a device direction with
`total_length > 0`: the builder fails with `InvalidArgument` when
`total_length` is not a multiple of `period_length` or the period exceeds
`PDMA_MAX_DESC_BYTES` (a zero `total_length` is also rejected with
`InvalidArgument`); otherwise (with enough pool) it returns exactly
`total_length / period_length` descriptors, every one carrying the
end-of-chain interrupt flag, and the last descriptor's next pointer equals
the first descriptor's DMA address (ring closure). -/
theorem claim_C2_prep_cyclic (dcmd0 : Nat) (dir : Dir)
    (devAddr bufAddr len periodLen : Nat) (pool : List Nat) :
    ((len % periodLen ≠ 0 ∨ PDMA_MAX_DESC_BYTES < periodLen) →
      mmp_pdma_prep_dma_cyclic dcmd0 dir devAddr bufAddr len periodLen pool
        = .err .invalidArgument pool) ∧
    (len = 0 →
      mmp_pdma_prep_dma_cyclic dcmd0 dir devAddr bufAddr len periodLen pool
        = .err .invalidArgument pool) ∧
    (0 < len → len % periodLen = 0 → periodLen ≤ PDMA_MAX_DESC_BYTES →
      dir ≠ .memToMem → len / periodLen ≤ pool.length →
      ∃ chain pool',
        mmp_pdma_prep_dma_cyclic dcmd0 dir devAddr bufAddr len periodLen pool
          = .ok chain pool' ∧
        chain.length = len / periodLen ∧
        (∀ i, i < chain.length → endIrq (chain.getD i default) = true) ∧
        (chain.getD (chain.length - 1) default).desc.ddadr
          = (chain.getD 0 default).phys) := by
  refine ⟨?_, ?_, ?_⟩
  · intro h
    unfold mmp_pdma_prep_dma_cyclic
    rcases h with h | h
    · by_cases h0 : len = 0 ∨ periodLen = 0
      · rw [if_pos h0]
      · rw [if_neg h0, if_pos h]
    · by_cases h0 : len = 0 ∨ periodLen = 0
      · rw [if_pos h0]
      · rw [if_neg h0]
        by_cases h1 : len % periodLen ≠ 0
        · rw [if_pos h1]
        · rw [if_neg h1, if_pos h]
  · intro h
    unfold mmp_pdma_prep_dma_cyclic
    rw [if_pos (Or.inl h)]
  · intro hlen hmod hper hdir hpool
    have hp : 0 < periodLen := by
      rcases Nat.eq_zero_or_pos periodLen with h0 | h0
      · rw [h0] at hmod; simp [Nat.mod_zero] at hmod; omega
      · exact h0
    have hguard : ¬(len = 0 ∨ periodLen = 0) := by omega
    cases dir with
    | memToMem => exact absurd rfl hdir
    | memToDev =>
      refine cyclic_ok_generic dcmd0 .memToDev devAddr bufAddr len periodLen pool
        (u32 bufAddr) devAddr hp hlen hmod hpool ?_
      unfold mmp_pdma_prep_dma_cyclic
      rw [if_neg hguard, if_neg (by omega), if_neg (by omega)]
      rfl
    | devToMem =>
      refine cyclic_ok_generic dcmd0 .devToMem devAddr bufAddr len periodLen pool
        devAddr (u32 bufAddr) hp hlen hmod hpool ?_
      unfold mmp_pdma_prep_dma_cyclic
      rw [if_neg hguard, if_neg (by omega), if_neg (by omega)]
      rfl

/-- Witness for C2 at the claim's example scenario (4096-byte buffer,
1024-byte period → 4 ring-linked descriptors, all raising the period
interrupt). -/
theorem claim_C2_witness :
    ∃ chain pool',
      mmp_pdma_prep_dma_cyclic 0x10004000 Dir.memToDev 0x5000 0x1000 4096 1024
          [32, 64, 96, 128] = .ok chain pool' ∧
      chain.length = 4096 / 1024 ∧
      (∀ i, i < chain.length → endIrq (chain.getD i default) = true) ∧
      (chain.getD (chain.length - 1) default).desc.ddadr
        = (chain.getD 0 default).phys := by
  obtain ⟨c, p, h1, h2, h3, h4⟩ :=
    (claim_C2_prep_cyclic 0x10004000 .memToDev 0x5000 0x1000 4096 1024
      [32, 64, 96, 128]).2.2 (by norm_num) (by norm_num) (by decide) (by decide)
      (by decide)
  exact ⟨c, p, h1, h2, h3, h4⟩

/-! ## Claim C3 -/

/-- **C3 (code bug).**  The scatter-gather builder reads each segment's
address from the loop variable (`sg_dma_address(sg)`) but the length from
the scatterlist head (`sg_dma_len(sgl)`), so every segment is split by the
*first* segment's length.  At the two-segment input
`[(0x1000, 100), (0x2000, 200)]` the produced chain has length fields
`[100, 100]` summing to 200, while the claim requires each segment to be
split by its own length, i.e. lengths `[100, 200]` summing to 300.  (The
remaining parts of the claim hold in this run: the chain is one
concatenation, and only its final descriptor carries `DCMD_ENDIRQEN`
(`dcmd` 2418016356 has bit 21 set, 2415919204 does not) and `DDADR_STOP`.) -/
theorem claim_C3_sg_uses_first_segment_length :
    mmp_pdma_prep_slave_sg 0x90000000 Dir.memToDev 0x5000
        [⟨0x1000, 100⟩, ⟨0x2000, 200⟩] [32, 64, 96, 128]
      = .ok
          [{ desc := { ddadr := 64, dsadr := 4096, dtadr := 20480, dcmd := 2415919204 }
             phys := 32, cookie := 0, hasCallback := false },
           { desc := { ddadr := 1, dsadr := 8192, dtadr := 20480, dcmd := 2418016356 }
             phys := 64, cookie := 0, hasCallback := false }]
          [96, 128] ∧
    (∀ chain pool',
      mmp_pdma_prep_slave_sg 0x90000000 Dir.memToDev 0x5000
          [⟨0x1000, 100⟩, ⟨0x2000, 200⟩] [32, 64, 96, 128] = .ok chain pool' →
      (chain.map lenField).sum = 200) ∧
    (([⟨0x1000, 100⟩, ⟨0x2000, 200⟩] : List SgEnt).map SgEnt.len).sum = 300 := by
  refine ⟨by decide, ?_, by decide⟩
  intro chain pool' h
  rw [show mmp_pdma_prep_slave_sg 0x90000000 Dir.memToDev 0x5000
        [⟨0x1000, 100⟩, ⟨0x2000, 200⟩] [32, 64, 96, 128]
      = .ok
          [{ desc := { ddadr := 64, dsadr := 4096, dtadr := 20480, dcmd := 2415919204 }
             phys := 32, cookie := 0, hasCallback := false },
           { desc := { ddadr := 1, dsadr := 8192, dtadr := 20480, dcmd := 2418016356 }
             phys := 64, cookie := 0, hasCallback := false }]
          [96, 128] from by decide] at h
  injection h with hc hp
  subst hc
  decide

/-! ### Pool accounting for the allocation loops

Each loop pops pool entries one per descriptor; on success the consumed
entries are exactly the chain's `phys` fields, and on allocation failure
they are exactly the `phys` fields of the partial chain handed to the
`fail:` cleanup. -/

theorem memcpyLoop_pool_acct (dcmd0 : Nat) (dir : Dir) :
    ∀ fuel dst src len pool,
      (∀ chain pool', memcpyLoop dcmd0 dir fuel dst src len pool = .ok chain pool' →
        pool = chain.map DescSw.phys ++ pool') ∧
      (∀ alloc pool', memcpyLoop dcmd0 dir fuel dst src len pool = .fail alloc pool' →
        pool = alloc.map DescSw.phys ++ pool') := by
  intro fuel
  induction fuel with
  | zero =>
    intro dst src len pool
    constructor
    · intro chain pool' h
      simp [memcpyLoop] at h
    · intro alloc pool' h
      simp only [memcpyLoop, LoopRes.fail.injEq] at h
      rw [← h.1, ← h.2]
      rfl
  | succ fuel ih =>
    intro dst src len pool
    constructor
    · intro chain pool' h
      cases pool with
      | nil => simp [memcpyLoop, allocDesc] at h
      | cons p rest =>
        simp only [memcpyLoop, allocDesc] at h
        by_cases hl : len - min len PDMA_MAX_DESC_BYTES = 0
        · rw [if_pos hl] at h
          injection h with h1 h2
          rw [← h1, ← h2]
          rfl
        · rw [if_neg hl] at h
          cases hrec : memcpyLoop dcmd0 dir fuel
              (advDst dir dst (min len PDMA_MAX_DESC_BYTES))
              (advSrc dir src (min len PDMA_MAX_DESC_BYTES))
              (len - min len PDMA_MAX_DESC_BYTES) rest with
          | ok rc rp =>
            rw [hrec] at h
            injection h with h1 h2
            rw [← h1, ← h2]
            have hres := (ih (advDst dir dst (min len PDMA_MAX_DESC_BYTES))
              (advSrc dir src (min len PDMA_MAX_DESC_BYTES))
              (len - min len PDMA_MAX_DESC_BYTES) rest).1 rc rp hrec
            simp [hres]
          | fail ra rp =>
            rw [hrec] at h
            exact absurd h (by simp)
    · intro alloc pool' h
      cases pool with
      | nil =>
        simp only [memcpyLoop, allocDesc, LoopRes.fail.injEq] at h
        rw [← h.1, ← h.2]
        rfl
      | cons p rest =>
        simp only [memcpyLoop, allocDesc] at h
        by_cases hl : len - min len PDMA_MAX_DESC_BYTES = 0
        · rw [if_pos hl] at h
          exact absurd h (by simp)
        · rw [if_neg hl] at h
          cases hrec : memcpyLoop dcmd0 dir fuel
              (advDst dir dst (min len PDMA_MAX_DESC_BYTES))
              (advSrc dir src (min len PDMA_MAX_DESC_BYTES))
              (len - min len PDMA_MAX_DESC_BYTES) rest with
          | ok rc rp =>
            rw [hrec] at h
            exact absurd h (by simp)
          | fail ra rp =>
            rw [hrec] at h
            injection h with h1 h2
            rw [← h1, ← h2]
            have hres := (ih (advDst dir dst (min len PDMA_MAX_DESC_BYTES))
              (advSrc dir src (min len PDMA_MAX_DESC_BYTES))
              (len - min len PDMA_MAX_DESC_BYTES) rest).2 ra rp hrec
            simp [hres]

theorem cyclicLoop_pool_acct (dcmd0 : Nat) (dir : Dir) (periodLen : Nat) :
    ∀ fuel src dst len pool,
      (∀ chain pool', cyclicLoop dcmd0 dir periodLen fuel src dst len pool = .ok chain pool' →
        pool = chain.map DescSw.phys ++ pool') ∧
      (∀ alloc pool', cyclicLoop dcmd0 dir periodLen fuel src dst len pool = .fail alloc pool' →
        pool = alloc.map DescSw.phys ++ pool') := by
  intro fuel
  induction fuel with
  | zero =>
    intro src dst len pool
    constructor
    · intro chain pool' h
      simp [cyclicLoop] at h
    · intro alloc pool' h
      simp only [cyclicLoop, LoopRes.fail.injEq] at h
      rw [← h.1, ← h.2]
      rfl
  | succ fuel ih =>
    intro src dst len pool
    constructor
    · intro chain pool' h
      cases pool with
      | nil => simp [cyclicLoop, allocDesc] at h
      | cons p rest =>
        simp only [cyclicLoop, allocDesc] at h
        by_cases hl : len - periodLen = 0
        · rw [if_pos hl] at h
          injection h with h1 h2
          rw [← h1, ← h2]
          rfl
        · rw [if_neg hl] at h
          cases hrec : cyclicLoop dcmd0 dir periodLen fuel
              (if dir = Dir.memToDev then src + periodLen else src)
              (if dir = Dir.memToDev then dst else dst + periodLen)
              (len - periodLen) rest with
          | ok rc rp =>
            rw [hrec] at h
            injection h with h1 h2
            rw [← h1, ← h2]
            have hres := (ih (if dir = Dir.memToDev then src + periodLen else src)
              (if dir = Dir.memToDev then dst else dst + periodLen)
              (len - periodLen) rest).1 rc rp hrec
            simp [hres]
          | fail ra rp =>
            rw [hrec] at h
            exact absurd h (by simp)
    · intro alloc pool' h
      cases pool with
      | nil =>
        simp only [cyclicLoop, allocDesc, LoopRes.fail.injEq] at h
        rw [← h.1, ← h.2]
        rfl
      | cons p rest =>
        simp only [cyclicLoop, allocDesc] at h
        by_cases hl : len - periodLen = 0
        · rw [if_pos hl] at h
          exact absurd h (by simp)
        · rw [if_neg hl] at h
          cases hrec : cyclicLoop dcmd0 dir periodLen fuel
              (if dir = Dir.memToDev then src + periodLen else src)
              (if dir = Dir.memToDev then dst else dst + periodLen)
              (len - periodLen) rest with
          | ok rc rp =>
            rw [hrec] at h
            exact absurd h (by simp)
          | fail ra rp =>
            rw [hrec] at h
            injection h with h1 h2
            rw [← h1, ← h2]
            have hres := (ih (if dir = Dir.memToDev then src + periodLen else src)
              (if dir = Dir.memToDev then dst else dst + periodLen)
              (len - periodLen) rest).2 ra rp hrec
            simp [hres]

theorem sgSegLoop_pool_acct (dcmd0 : Nat) (dir : Dir) (devAddr : Nat)
    (hdir : dir ≠ .memToMem) :
    ∀ fuel addr avail pool,
      (∀ chain pool', sgSegLoop dcmd0 dir devAddr fuel addr avail pool = .ok chain pool' →
        pool = chain.map DescSw.phys ++ pool') ∧
      (∀ alloc pool', sgSegLoop dcmd0 dir devAddr fuel addr avail pool = .fail alloc pool' →
        pool = alloc.map DescSw.phys ++ pool') := by
  have hflds : ∀ a, ∃ sa ta, sgAddrFields dir devAddr a = some (sa, ta) := by
    intro a
    cases dir with
    | memToMem => exact absurd rfl hdir
    | memToDev => exact ⟨_, _, rfl⟩
    | devToMem => exact ⟨_, _, rfl⟩
  intro fuel
  induction fuel with
  | zero =>
    intro addr avail pool
    constructor
    · intro chain pool' h
      simp [sgSegLoop] at h
    · intro alloc pool' h
      simp only [sgSegLoop, LoopRes.fail.injEq] at h
      rw [← h.1, ← h.2]
      rfl
  | succ fuel ih =>
    intro addr avail pool
    obtain ⟨sa, ta, hsa⟩ := hflds addr
    constructor
    · intro chain pool' h
      cases pool with
      | nil => simp [sgSegLoop, allocDesc] at h
      | cons p rest =>
        simp only [sgSegLoop, allocDesc, hsa] at h
        by_cases hl : avail - min avail PDMA_MAX_DESC_BYTES = 0
        · rw [if_pos hl] at h
          injection h with h1 h2
          rw [← h1, ← h2]
          rfl
        · rw [if_neg hl] at h
          cases hrec : sgSegLoop dcmd0 dir devAddr fuel
              (addr + min avail PDMA_MAX_DESC_BYTES)
              (avail - min avail PDMA_MAX_DESC_BYTES) rest with
          | ok rc rp =>
            rw [hrec] at h
            injection h with h1 h2
            rw [← h1, ← h2]
            have hres := (ih (addr + min avail PDMA_MAX_DESC_BYTES)
              (avail - min avail PDMA_MAX_DESC_BYTES) rest).1 rc rp hrec
            simp [hres]
          | fail ra rp =>
            rw [hrec] at h
            exact absurd h (by simp)
    · intro alloc pool' h
      cases pool with
      | nil =>
        simp only [sgSegLoop, allocDesc, LoopRes.fail.injEq] at h
        rw [← h.1, ← h.2]
        rfl
      | cons p rest =>
        simp only [sgSegLoop, allocDesc, hsa] at h
        by_cases hl : avail - min avail PDMA_MAX_DESC_BYTES = 0
        · rw [if_pos hl] at h
          exact absurd h (by simp)
        · rw [if_neg hl] at h
          cases hrec : sgSegLoop dcmd0 dir devAddr fuel
              (addr + min avail PDMA_MAX_DESC_BYTES)
              (avail - min avail PDMA_MAX_DESC_BYTES) rest with
          | ok rc rp =>
            rw [hrec] at h
            exact absurd h (by simp)
          | fail ra rp =>
            rw [hrec] at h
            injection h with h1 h2
            rw [← h1, ← h2]
            have hres := (ih (addr + min avail PDMA_MAX_DESC_BYTES)
              (avail - min avail PDMA_MAX_DESC_BYTES) rest).2 ra rp hrec
            simp [hres]

theorem sgOuterLoop_pool_acct (dcmd0 : Nat) (dir : Dir) (devAddr firstLen : Nat)
    (hdir : dir ≠ .memToMem) :
    ∀ sgl pool,
      (∀ chain pool', sgOuterLoop dcmd0 dir devAddr firstLen sgl pool = .ok chain pool' →
        pool = chain.map DescSw.phys ++ pool') ∧
      (∀ alloc pool', sgOuterLoop dcmd0 dir devAddr firstLen sgl pool = .fail alloc pool' →
        pool = alloc.map DescSw.phys ++ pool') := by
  intro sgl
  induction sgl with
  | nil =>
    intro pool
    constructor
    · intro chain pool' h
      simp only [sgOuterLoop, LoopRes.ok.injEq] at h
      rw [← h.1, ← h.2]
      rfl
    · intro alloc pool' h
      simp [sgOuterLoop] at h
  | cons sg rest ih =>
    intro pool
    constructor
    · intro chain pool' h
      cases hseg : sgSegLoop dcmd0 dir devAddr (firstLen + 1) sg.addr firstLen pool with
      | fail sa sp =>
        simp only [sgOuterLoop, hseg] at h
        exact LoopRes.noConfusion h
      | ok sc sp =>
        have hs := (sgSegLoop_pool_acct dcmd0 dir devAddr hdir
          (firstLen + 1) sg.addr firstLen pool).1 sc sp hseg
        cases hrest : sgOuterLoop dcmd0 dir devAddr firstLen rest sp with
        | fail ra rp =>
          simp only [sgOuterLoop, hseg, hrest] at h
          exact LoopRes.noConfusion h
        | ok rc rp =>
          simp only [sgOuterLoop, hseg, hrest, LoopRes.ok.injEq] at h
          rw [← h.1, ← h.2]
          have hr := (ih sp).1 rc rp hrest
          simp [hs, hr]
    · intro alloc pool' h
      cases hseg : sgSegLoop dcmd0 dir devAddr (firstLen + 1) sg.addr firstLen pool with
      | fail sa sp =>
        simp only [sgOuterLoop, hseg, LoopRes.fail.injEq] at h
        rw [← h.1, ← h.2]
        exact (sgSegLoop_pool_acct dcmd0 dir devAddr hdir
          (firstLen + 1) sg.addr firstLen pool).2 sa sp hseg
      | ok sc sp =>
        have hs := (sgSegLoop_pool_acct dcmd0 dir devAddr hdir
          (firstLen + 1) sg.addr firstLen pool).1 sc sp hseg
        cases hrest : sgOuterLoop dcmd0 dir devAddr firstLen rest sp with
        | ok rc rp =>
          simp only [sgOuterLoop, hseg, hrest] at h
          exact LoopRes.noConfusion h
        | fail ra rp =>
          simp only [sgOuterLoop, hseg, hrest, LoopRes.fail.injEq] at h
          rw [← h.1, ← h.2]
          have hr := (ih sp).2 ra rp hrest
          simp [hs, hr]

/-! ### Allocation failure is forced by an insufficient pool -/

theorem memcpyLoop_fails_of_insufficient (dcmd0 : Nat) (dir : Dir) :
    ∀ fuel len dst src pool, 0 < len → len ≤ fuel →
      pool.length < memcpyDescCount len →
      ∃ alloc pool', memcpyLoop dcmd0 dir fuel dst src len pool = .fail alloc pool' := by
  intro fuel
  induction fuel with
  | zero => intro len dst src pool h1 h2; omega
  | succ fuel ih =>
    intro len dst src pool h1 h2 h3
    cases pool with
    | nil => exact ⟨[], [], by simp [memcpyLoop, allocDesc]⟩
    | cons p rest =>
      rcases le_or_lt len PDMA_MAX_DESC_BYTES with hle | hgt
      · rw [memcpyDescCount_of_le h1 hle] at h3
        simp at h3
      · have hnd := memcpyDescCount_of_gt hgt
        have hcopy : min len PDMA_MAX_DESC_BYTES = PDMA_MAX_DESC_BYTES := by omega
        have hM : 0 < PDMA_MAX_DESC_BYTES := by decide
        obtain ⟨a, p', hrec⟩ := ih (len - PDMA_MAX_DESC_BYTES)
          (advDst dir dst PDMA_MAX_DESC_BYTES) (advSrc dir src PDMA_MAX_DESC_BYTES)
          rest (by omega) (by omega) (by simp at h3 ⊢; omega)
        simp only [memcpyLoop, allocDesc, hcopy]
        rw [if_neg (by omega), hrec]
        exact ⟨_, _, rfl⟩

theorem cyclicLoop_fails_of_insufficient (dcmd0 : Nat) (dir : Dir) (periodLen : Nat)
    (hp : 0 < periodLen) :
    ∀ fuel len src dst pool, 0 < len → len % periodLen = 0 → len ≤ fuel →
      pool.length < len / periodLen →
      ∃ alloc pool', cyclicLoop dcmd0 dir periodLen fuel src dst len pool = .fail alloc pool' := by
  intro fuel
  induction fuel with
  | zero => intro len src dst pool h1 h2 h3; omega
  | succ fuel ih =>
    intro len src dst pool h1 h2 h3 h4
    have hge : periodLen ≤ len := Nat.le_of_dvd h1 (Nat.dvd_of_mod_eq_zero h2)
    cases pool with
    | nil => exact ⟨[], [], by simp [cyclicLoop, allocDesc]⟩
    | cons p rest =>
      rcases eq_or_lt_of_le hge with heq | hgt
      · exfalso
        subst heq
        rw [Nat.div_self hp] at h4
        simp at h4
      · have hmod' : (len - periodLen) % periodLen = 0 :=
          Nat.mod_eq_zero_of_dvd
            (Nat.dvd_sub' (Nat.dvd_of_mod_eq_zero h2) dvd_rfl)
        have hdiv : len / periodLen = (len - periodLen) / periodLen + 1 := by
          conv_lhs => rw [show len = (len - periodLen) + periodLen from by omega]
          rw [Nat.add_div_right _ hp]
        obtain ⟨a, p', hrec⟩ := ih (len - periodLen)
          (if dir = Dir.memToDev then src + periodLen else src)
          (if dir = Dir.memToDev then dst else dst + periodLen) rest
          (by omega) hmod' (by omega) (by simp at h4 ⊢; omega)
        simp only [cyclicLoop, allocDesc]
        rw [if_neg (by omega), hrec]
        exact ⟨_, _, rfl⟩

/-! ## Claim C9 -/

/-- **C9.**  When the descriptor pool cannot satisfy an allocation partway
through building a chain, each builder returns the `OutOfDescriptors`
error, and the pool it leaves behind is a permutation of the pool it
started from — every descriptor allocated for the partial chain has been
freed back (no leak).  Flat copy and cyclic are characterised exactly
(the pool is smaller than the chain the request needs); for scatter-gather
every `OutOfDescriptors` return restores the pool, and an exhausted pool at
the first allocation forces that return. -/
theorem claim_C9_alloc_failure_unwinds :
    (∀ (dcmd0 : Nat) (dir : Dir) (dst src len : Nat) (pool : List Nat),
      0 < len → pool.length < memcpyDescCount len →
      ∃ pool', mmp_pdma_prep_memcpy dcmd0 dir dst src len pool
          = .err .outOfDescriptors pool' ∧ pool'.Perm pool) ∧
    (∀ (dcmd0 : Nat) (dir : Dir) (devAddr bufAddr len periodLen : Nat) (pool : List Nat),
      0 < len → len % periodLen = 0 → periodLen ≤ PDMA_MAX_DESC_BYTES →
      dir ≠ .memToMem → pool.length < len / periodLen →
      ∃ pool', mmp_pdma_prep_dma_cyclic dcmd0 dir devAddr bufAddr len periodLen pool
          = .err .outOfDescriptors pool' ∧ pool'.Perm pool) ∧
    (∀ (dcmd0 : Nat) (dir : Dir) (devAddr : Nat) (sgl : List SgEnt) (pool pool' : List Nat)
      (e : BuildErr), dir ≠ .memToMem → sgl ≠ [] →
      mmp_pdma_prep_slave_sg dcmd0 dir devAddr sgl pool = .err e pool' →
      e = .outOfDescriptors ∧ pool'.Perm pool) ∧
    (∀ (dcmd0 : Nat) (dir : Dir) (devAddr : Nat) (sg0 : SgEnt) (rest : List SgEnt),
      mmp_pdma_prep_slave_sg dcmd0 dir devAddr (sg0 :: rest) []
        = .err .outOfDescriptors []) := by
  refine ⟨?_, ?_, ?_, ?_⟩
  · intro dcmd0 dir dst src len pool hlen hshort
    obtain ⟨a, p', hfail⟩ := memcpyLoop_fails_of_insufficient dcmd0 dir len len dst src pool
      hlen le_rfl hshort
    have hacct := (memcpyLoop_pool_acct dcmd0 dir len dst src len pool).2 a p' hfail
    refine ⟨freeDescList p' a, ?_, ?_⟩
    · unfold mmp_pdma_prep_memcpy
      rw [if_neg (by omega), hfail]
    · unfold freeDescList
      rw [hacct]
      exact List.perm_append_comm
  · intro dcmd0 dir devAddr bufAddr len periodLen pool hlen hmod hper hdir hshort
    have hp : 0 < periodLen := by
      rcases Nat.eq_zero_or_pos periodLen with h0 | h0
      · rw [h0] at hmod; simp [Nat.mod_zero] at hmod; omega
      · exact h0
    cases dir with
    | memToMem => exact absurd rfl hdir
    | memToDev =>
      obtain ⟨a, p', hfail⟩ := cyclicLoop_fails_of_insufficient dcmd0 .memToDev periodLen hp
        len len (u32 bufAddr) devAddr pool hlen hmod le_rfl hshort
      have hacct := (cyclicLoop_pool_acct dcmd0 .memToDev periodLen len
        (u32 bufAddr) devAddr len pool).2 a p' hfail
      refine ⟨freeDescList p' a, ?_, ?_⟩
      · unfold mmp_pdma_prep_dma_cyclic
        rw [if_neg (by omega), if_neg (by omega), if_neg (by omega)]
        show (match cyclicLoop dcmd0 .memToDev periodLen len (u32 bufAddr) devAddr len pool with
          | LoopRes.ok chain pool' => BuildRes.ok (linkRing chain.headI.phys chain) pool'
          | LoopRes.fail allocated pool' =>
              BuildRes.err BuildErr.outOfDescriptors (freeDescList pool' allocated)) = _
        rw [hfail]
      · unfold freeDescList
        rw [hacct]
        exact List.perm_append_comm
    | devToMem =>
      obtain ⟨a, p', hfail⟩ := cyclicLoop_fails_of_insufficient dcmd0 .devToMem periodLen hp
        len len devAddr (u32 bufAddr) pool hlen hmod le_rfl hshort
      have hacct := (cyclicLoop_pool_acct dcmd0 .devToMem periodLen len
        devAddr (u32 bufAddr) len pool).2 a p' hfail
      refine ⟨freeDescList p' a, ?_, ?_⟩
      · unfold mmp_pdma_prep_dma_cyclic
        rw [if_neg (by omega), if_neg (by omega), if_neg (by omega)]
        show (match cyclicLoop dcmd0 .devToMem periodLen len devAddr (u32 bufAddr) len pool with
          | LoopRes.ok chain pool' => BuildRes.ok (linkRing chain.headI.phys chain) pool'
          | LoopRes.fail allocated pool' =>
              BuildRes.err BuildErr.outOfDescriptors (freeDescList pool' allocated)) = _
        rw [hfail]
      · unfold freeDescList
        rw [hacct]
        exact List.perm_append_comm
  · intro dcmd0 dir devAddr sgl pool pool' e hdir hne h
    cases sgl with
    | nil => exact absurd rfl hne
    | cons sg0 rest =>
      cases houter : sgOuterLoop dcmd0 dir devAddr sg0.len (sg0 :: rest) pool with
      | ok oc op =>
        simp only [mmp_pdma_prep_slave_sg, houter] at h
        exact BuildRes.noConfusion h
      | fail oa op =>
        simp only [mmp_pdma_prep_slave_sg, houter, BuildRes.err.injEq] at h
        have hacct := (sgOuterLoop_pool_acct dcmd0 dir devAddr sg0.len hdir
          (sg0 :: rest) pool).2 oa op houter
        refine ⟨h.1.symm, ?_⟩
        rw [← h.2]
        unfold freeDescList
        rw [hacct]
        exact List.perm_append_comm
  · intro dcmd0 dir devAddr sg0 rest
    unfold mmp_pdma_prep_slave_sg
    have hseg : sgSegLoop dcmd0 dir devAddr (sg0.len + 1) sg0.addr sg0.len []
        = .fail [] [] := by
      simp [sgSegLoop, allocDesc]
    simp [sgOuterLoop, hseg, freeDescList]

/-- Witness for C9: a 20000-byte copy needs 3 descriptors; with a 2-entry
pool the builder fails with `OutOfDescriptors` and both pool entries are
still free afterwards. -/
theorem claim_C9_witness :
    ∃ pool', mmp_pdma_prep_memcpy 0xC0030000 Dir.memToMem 0x9000 0x1000 20000 [32, 64]
        = .err .outOfDescriptors pool' ∧ pool'.Perm [32, 64] :=
  claim_C9_alloc_failure_unwinds.1 0xC0030000 .memToMem 0x9000 0x1000 20000 [32, 64]
    (by norm_num) (by decide)

/-! ## Claim C4 -/

theorem bandScanOrder_32 : bandScanOrder 32 = claimOrder := by decide

theorem mem_claimOrder (i : Nat) : i ∈ claimOrder ↔ i < 32 := by
  simp only [claimOrder, List.mem_flatMap, List.mem_filter, List.mem_range,
    beq_iff_eq]
  constructor
  · rintro ⟨p, _, hi, _⟩
    exact hi
  · intro hi
    refine ⟨(i &&& 0xf) >>> 2, ?_, hi, rfl⟩
    have h1 : i &&& 0xf ≤ 0xf := Nat.and_le_right
    have h2 : (i &&& 0xf) >>> 2 = (i &&& 0xf) / 2 ^ 2 := Nat.shiftRight_eq_div_pow _ _
    have h3 : (2 : Nat) ^ 2 = 4 := by norm_num
    omega

/-- **C4.**  Physical-channel acquisition: a request id with a reservation
entry binds exactly its configured physical index, succeeding only when
that index is currently unbound (never falling through to the search), and
a reserved index is never returned for a request id without a reservation
entry; an unreserved request id scans the four priority bands
`(index & 0xF) >> 2` low-to-high, indices ascending within a band, and
binds the first unbound non-reserved channel; when no such channel is free
the acquisition returns `none`. -/
theorem claim_C4_lookup_phy (reserved : List ReservedChan)
    (bindings : List (Option Nat)) (drcmr : Nat) :
    (∀ cid, lookup_phy_for_drcmr reserved drcmr = some cid →
      (bindings.getD cid none = none →
        lookup_phy 32 reserved bindings drcmr = some cid) ∧
      (bindings.getD cid none ≠ none →
        lookup_phy 32 reserved bindings drcmr = none)) ∧
    (lookup_phy_for_drcmr reserved drcmr = none →
      lookup_phy 32 reserved bindings drcmr
        = claimOrder.find?
            (fun i => !is_channel_reserved reserved i && (bindings.getD i none).isNone)) ∧
    (lookup_phy_for_drcmr reserved drcmr = none →
      ∀ j, lookup_phy 32 reserved bindings drcmr = some j →
        is_channel_reserved reserved j = false ∧ bindings.getD j none = none) ∧
    (lookup_phy_for_drcmr reserved drcmr = none →
      (lookup_phy 32 reserved bindings drcmr = none ↔
        ∀ i, i < 32 → is_channel_reserved reserved i = true ∨
          bindings.getD i none ≠ none)) := by
  refine ⟨?_, ?_, ?_, ?_⟩
  · intro cid hres
    unfold lookup_phy
    rw [hres]
    constructor
    · intro hfree
      show (if bindings.getD cid none = none then some cid else none) = some cid
      rw [if_pos hfree]
    · intro hbound
      show (if bindings.getD cid none = none then some cid else none) = none
      rw [if_neg hbound]
  · intro hres
    unfold lookup_phy
    rw [hres, bandScanOrder_32]
  · intro hres j hj
    unfold lookup_phy at hj
    rw [hres, bandScanOrder_32] at hj
    have := List.find?_some hj
    simp only [Bool.and_eq_true, Bool.not_eq_true', Option.isNone_iff_eq_none] at this
    exact this
  · intro hres
    unfold lookup_phy
    rw [hres, bandScanOrder_32]
    rw [List.find?_eq_none]
    constructor
    · intro h i hi
      have := h i ((mem_claimOrder i).mpr hi)
      simp only [Bool.and_eq_true, Bool.not_eq_true', Option.isNone_iff_eq_none,
        not_and] at this
      by_cases hr : is_channel_reserved reserved i = true
      · exact Or.inl hr
      · right
        simp only [Bool.not_eq_true] at hr
        exact this hr
    · intro h i hi
      have hlt := (mem_claimOrder i).mp hi
      simp only [Bool.and_eq_true, Bool.not_eq_true', Option.isNone_iff_eq_none,
        not_and]
      intro hr
      rcases h i hlt with hres' | hbound
      · rw [hr] at hres'
        exact absurd hres' (by simp)
      · exact hbound

/-- Witness for C4: two reservations `(chan 3 ↔ drcmr 7)`, channels 1–3
bound.  Request 7 binds none (its reserved channel 3 is taken); request 9
(unreserved) binds channel 16 — band 0's next free index — skipping bound
1, 2 and reserved 3. -/
theorem claim_C4_witness :
    lookup_phy 32 [⟨3, 7⟩]
      ((((List.replicate 32 (none : Option Nat)).set 1 (some 9)).set 2
        (some 9)).set 3 (some 9)) 7 = none ∧
    lookup_phy 32 [⟨3, 7⟩]
      ((((List.replicate 32 (none : Option Nat)).set 1 (some 9)).set 2
        (some 9)).set 3 (some 9)) 9
      = claimOrder.find?
          (fun i => !is_channel_reserved [⟨3, 7⟩] i &&
            (((((List.replicate 32 (none : Option Nat)).set 1 (some 9)).set 2
              (some 9)).set 3 (some 9)).getD i none).isNone) := by
  constructor
  · exact ((claim_C4_lookup_phy [⟨3, 7⟩] _ 7).1 3 (by decide)).2 (by decide)
  · exact (claim_C4_lookup_phy [⟨3, 7⟩] _ 9).2.1 (by decide)

/-! ## Claim C5 -/

theorem chan_setChan_self (s : Sys) (cid : Nat) (c : Chan)
    (h : cid < s.chans.length) : (s.setChan cid c).chan cid = c := by
  unfold Sys.setChan Sys.chan
  rw [List.getD_eq_getElem?_getD, List.getElem?_set_self h]
  rfl

theorem chan_setChan_ne (s : Sys) (cid cid' : Nat) (c : Chan)
    (h : cid ≠ cid') : (s.setChan cid c).chan cid' = s.chan cid' := by
  unfold Sys.setChan Sys.chan
  rw [List.getD_eq_getElem?_getD, List.getElem?_set_ne h,
    List.getD_eq_getElem?_getD]

theorem chan_eta_phy_none (c : Chan) (h : c.phy = none) :
    { c with phy := none } = c := by
  cases c
  simp only at h
  rw [h]

theorem splitAfterStop_fst_ne_nil (l : List DescSw) (h : l ≠ []) :
    (splitAfterStop l).1 ≠ [] := by
  cases l with
  | nil => exact absurd rfl h
  | cons d rest =>
    by_cases hstop : stopFlag d <;> simp [splitAfterStop, hstop]

/-- The pending → running move stops after the first stop-marked
descriptor: the moved prefix plus the remainder is the original queue, no
descriptor before the last moved one carries the stop flag, and when a
remainder is left the last moved descriptor does carry it. -/
theorem splitAfterStop_spec (l : List DescSw) :
    (splitAfterStop l).1 ++ (splitAfterStop l).2 = l ∧
    (∀ i, i + 1 < (splitAfterStop l).1.length →
      stopFlag ((splitAfterStop l).1.getD i default) = false) ∧
    ((splitAfterStop l).2 ≠ [] →
      stopFlag ((splitAfterStop l).1.getD ((splitAfterStop l).1.length - 1) default)
        = true) := by
  induction l with
  | nil => exact ⟨rfl, fun i h => by simp [splitAfterStop] at h, fun h => absurd rfl h⟩
  | cons d rest ih =>
    by_cases hstop : stopFlag d
    · refine ⟨?_, ?_, ?_⟩
      · simp [splitAfterStop, hstop]
      · intro i hi
        simp [splitAfterStop, hstop] at hi
      · intro _
        simp [splitAfterStop, hstop]
    · have hs : splitAfterStop (d :: rest)
          = (d :: (splitAfterStop rest).1, (splitAfterStop rest).2) := by
        simp [splitAfterStop, hstop]
      refine ⟨?_, ?_, ?_⟩
      · rw [hs]
        simpa using ih.1
      · intro i hi
        rw [hs] at hi ⊢
        cases i with
        | zero =>
          simp only [List.getD_cons_zero]
          simp only [Bool.not_eq_true] at hstop
          exact hstop
        | succ i =>
          simp only [List.getD_cons_succ]
          exact ih.2.1 i (by simp at hi; omega)
      · intro hne
        rw [hs] at hne ⊢
        simp only at hne
        have hrest_ne : rest ≠ [] := by
          intro h0
          rw [h0] at hne
          exact hne rfl
        have htne := splitAfterStop_fst_ne_nil rest hrest_ne
        have hlast := ih.2.2 hne
        have hlen : 0 < (splitAfterStop rest).1.length :=
          List.length_pos.mpr htne
        simp only [List.length_cons, Nat.add_sub_cancel]
        rw [show (splitAfterStop rest).1.length
            = ((splitAfterStop rest).1.length - 1) + 1 from by omega,
          List.getD_cons_succ]
        exact hlast

/-- **C5.**  `start_pending_queue`: a no-op while `status == InProgress`;
with an empty pending queue it only releases the physical-channel binding;
otherwise it acquires a physical channel when none is bound (returning the
state unchanged when none is free), moves the pending queue — up to and
including the first stop-marked descriptor — onto the running queue,
programs the first running descriptor's address, starts the hardware, and
sets the status to `InProgress` with a cleared residue. -/
theorem claim_C5_start_pending_queue (s : Sys) (cid : Nat)
    (hcid : cid < s.chans.length) :
    ((s.chan cid).status = .inProgress → start_pending_queue s cid = s) ∧
    ((s.chan cid).status ≠ .inProgress → (s.chan cid).pending = [] →
      start_pending_queue s cid = mmp_pdma_free_phy s cid ∧
      (start_pending_queue s cid).chan cid = { s.chan cid with phy := none } ∧
      (start_pending_queue s cid).bindings
        = (match (s.chan cid).phy with
           | none => s.bindings
           | some i => s.bindings.set i none) ∧
      ∀ cid', cid' ≠ cid →
        (start_pending_queue s cid).chan cid' = s.chan cid') ∧
    ((s.chan cid).status ≠ .inProgress → (s.chan cid).pending ≠ [] →
      (s.chan cid).phy = none →
      lookup_phy s.bindings.length s.reserved s.bindings (s.chan cid).drcmr = none →
      start_pending_queue s cid = s) ∧
    (∀ i, (s.chan cid).status ≠ .inProgress → (s.chan cid).pending ≠ [] →
      ((s.chan cid).phy = some i ∨
        ((s.chan cid).phy = none ∧
          lookup_phy s.bindings.length s.reserved s.bindings (s.chan cid).drcmr
            = some i)) →
      (start_pending_queue s cid).chan cid =
        { s.chan cid with
            phy := some i
            pending := (splitAfterStop (s.chan cid).pending).2
            running := (s.chan cid).running ++ (splitAfterStop (s.chan cid).pending).1
            programmed := some (((s.chan cid).running
              ++ (splitAfterStop (s.chan cid).pending).1).headI.phys)
            hwRun := true
            status := .inProgress
            bytesResidue := 0 }) := by
  refine ⟨?_, ?_, ?_, ?_⟩
  · intro hst
    unfold start_pending_queue
    rw [if_pos hst]
  · intro hst hpend
    have hempty : (s.chan cid).pending.isEmpty = true := by
      rw [hpend]; rfl
    have hres : start_pending_queue s cid = mmp_pdma_free_phy s cid := by
      unfold start_pending_queue
      rw [if_neg hst, if_pos hempty]
    refine ⟨hres, ?_, ?_, ?_⟩
    · rw [hres]
      cases hphy : (s.chan cid).phy with
      | none =>
        simp only [mmp_pdma_free_phy, hphy]
        exact (chan_eta_phy_none _ hphy).symm
      | some i =>
        simp only [mmp_pdma_free_phy, hphy]
        show (s.setChan cid { s.chan cid with phy := none }).chan cid = _
        exact chan_setChan_self _ _ _ hcid
    · rw [hres]
      cases hphy : (s.chan cid).phy with
      | none => simp only [mmp_pdma_free_phy, hphy]
      | some i => simp only [mmp_pdma_free_phy, hphy]
    · intro cid' hne
      rw [hres]
      cases hphy : (s.chan cid).phy with
      | none => simp only [mmp_pdma_free_phy, hphy]
      | some i =>
        simp only [mmp_pdma_free_phy, hphy]
        show (s.setChan cid { s.chan cid with phy := none }).chan cid' = _
        exact chan_setChan_ne _ _ _ _ (fun h => hne h.symm)
  · intro hst hpend hphy hlook
    have hempty : (s.chan cid).pending.isEmpty = false := by
      cases hp : (s.chan cid).pending
      · exact absurd hp hpend
      · rfl
    simp only [start_pending_queue, hempty, hphy, hlook, Bool.false_eq_true,
      if_false, if_neg hst]
  · intro i hst hpend hacq
    have hempty : (s.chan cid).pending.isEmpty = false := by
      cases hp : (s.chan cid).pending
      · exact absurd hp hpend
      · rfl
    rcases hsp : splitAfterStop (s.chan cid).pending with ⟨taken, rest⟩
    rcases hacq with hphy | ⟨hphy, hlook⟩
    · -- a physical channel is already bound
      have heq : start_pending_queue s cid
          = s.setChan cid { s.chan cid with
              phy := (s.chan cid).phy
              pending := rest
              running := (s.chan cid).running ++ taken
              programmed := some (((s.chan cid).running ++ taken).headI.phys)
              hwRun := true
              status := .inProgress
              bytesResidue := 0 } := by
        simp only [start_pending_queue, hempty, hphy, Bool.false_eq_true,
          if_false, if_neg hst, hsp]
      rw [heq, chan_setChan_self _ _ _ hcid, hphy]
    · -- acquire via lookup_phy
      have heq : start_pending_queue s cid
          = ({ s.setChan cid { s.chan cid with phy := some i } with
                bindings := s.bindings.set i (some cid) }).setChan cid
              { s.chan cid with
                  phy := some i
                  pending := rest
                  running := (s.chan cid).running ++ taken
                  programmed := some (((s.chan cid).running ++ taken).headI.phys)
                  hwRun := true
                  status := .inProgress
                  bytesResidue := 0 } := by
        have hchan2 : ({ s.setChan cid { s.chan cid with phy := some i } with
            bindings := s.bindings.set i (some cid) }).chan cid
            = { s.chan cid with phy := some i } := by
          show (s.setChan cid { s.chan cid with phy := some i }).chan cid = _
          exact chan_setChan_self _ _ _ hcid
        simp only [start_pending_queue, hempty, hphy, hlook, Bool.false_eq_true,
          if_false, if_neg hst, hchan2, hsp]
      rw [heq]
      have hlen2 : cid < ({ s.setChan cid { s.chan cid with phy := some i } with
          bindings := s.bindings.set i (some cid) }).chans.length := by
        show cid < (s.chans.set cid _).length
        simpa using hcid
      rw [chan_setChan_self _ _ _ hlen2]

/-- Witness for C5: issuing on `c5Sys` acquires physical channel 0, moves
both pending descriptors to the running queue, programs the first
descriptor's address and marks the channel in progress. -/
theorem claim_C5_witness :
    (start_pending_queue c5Sys 0).chan 0 =
      { c5Sys.chan 0 with
          phy := some 0
          pending := (splitAfterStop (c5Sys.chan 0).pending).2
          running := (c5Sys.chan 0).running
            ++ (splitAfterStop (c5Sys.chan 0).pending).1
          programmed := some (((c5Sys.chan 0).running
            ++ (splitAfterStop (c5Sys.chan 0).pending).1).headI.phys)
          hwRun := true
          status := .inProgress
          bytesResidue := 0 } :=
  (claim_C5_start_pending_queue c5Sys 0 (by decide)).2.2.2 0 (by decide)
    (by decide) (Or.inr ⟨by decide, by decide⟩)

/-! ## Claim C7 -/

/-- **C7.**  The residue calculator: with no bound physical channel it
returns the cached last-known residue; otherwise it reads the live
position register for the channel's direction (`DTADR` for
device-to-memory, `DSADR` otherwise) and walks the running queue from the
head with a latched `passed` flag.  The walk satisfies the claim's
clauses: an already-`passed` descriptor adds its full length; the
descriptor containing the live position adds `span_end − position` and
latches `passed`; a descriptor before the position adds nothing; at a
non-cyclic end-of-chain descriptor the walk returns the accumulated
residue when the token matches and otherwise resets residue to 0 and
`passed` to false and continues; a cyclic (or non-end-of-chain) descriptor
never triggers the token check. -/
theorem claim_C7_residue :
    (∀ (c : Chan) (dt ds : Nat) (ck : Int), c.phy = none →
      mmp_pdma_residue c dt ds ck = c.bytesResidue) ∧
    (∀ (c : Chan) (dt ds : Nat) (ck : Int) (i : Nat), c.phy = some i →
      mmp_pdma_residue c dt ds ck
        = residueWalk c.cyclicFirst.isSome ck c.dir
            (if c.dir = .devToMem then dt else ds) c.running 0 false) ∧
    (∀ (cyc : Bool) (ck : Int) (dir : Dir) (curr : Nat) (r : Nat),
      residueWalk cyc ck dir curr [] r true = r ∧
      residueWalk cyc ck dir curr [] r false = r) ∧
    (∀ (cyc : Bool) (ck : Int) (dir : Dir) (curr : Nat) (sw : DescSw)
      (rest : List DescSw) (r : Nat),
      (cyc = true ∨ endIrq sw = false) →
      residueWalk cyc ck dir curr (sw :: rest) r true
        = residueWalk cyc ck dir curr rest (r + lenField sw) true) ∧
    (∀ (cyc : Bool) (ck : Int) (dir : Dir) (curr : Nat) (sw : DescSw)
      (rest : List DescSw) (r : Nat),
      (cyc = true ∨ endIrq sw = false) →
      residueStart dir sw ≤ curr →
      curr ≤ residueStart dir sw + lenField sw →
      residueWalk cyc ck dir curr (sw :: rest) r false
        = residueWalk cyc ck dir curr rest
            (r + (residueStart dir sw + lenField sw - curr)) true) ∧
    (∀ (cyc : Bool) (ck : Int) (dir : Dir) (curr : Nat) (sw : DescSw)
      (rest : List DescSw) (r : Nat),
      (cyc = true ∨ endIrq sw = false) →
      ¬(residueStart dir sw ≤ curr ∧ curr ≤ residueStart dir sw + lenField sw) →
      residueWalk cyc ck dir curr (sw :: rest) r false
        = residueWalk cyc ck dir curr rest r false) ∧
    (∀ (ck : Int) (dir : Dir) (curr : Nat) (sw : DescSw)
      (rest : List DescSw) (r : Nat) (p : Bool),
      endIrq sw = true → sw.cookie = ck →
      residueWalk false ck dir curr (sw :: rest) r p
        = (if p then r + lenField sw
           else if residueStart dir sw ≤ curr ∧
              curr ≤ residueStart dir sw + lenField sw
           then r + (residueStart dir sw + lenField sw - curr) else r)) ∧
    (∀ (ck : Int) (dir : Dir) (curr : Nat) (sw : DescSw)
      (rest : List DescSw) (r : Nat) (p : Bool),
      endIrq sw = true → sw.cookie ≠ ck →
      residueWalk false ck dir curr (sw :: rest) r p
        = residueWalk false ck dir curr rest 0 false) := by
  refine ⟨?_, ?_, ?_, ?_, ?_, ?_, ?_, ?_⟩
  · intro c dt ds ck hphy
    unfold mmp_pdma_residue
    rw [hphy]
  · intro c dt ds ck i hphy
    unfold mmp_pdma_residue
    rw [hphy]
  · intro cyc ck dir curr r
    exact ⟨rfl, rfl⟩
  · intro cyc ck dir curr sw rest r hcont
    simp only [residueWalk, lenField]
    rcases hcont with h | h <;> simp [h]
  · intro cyc ck dir curr sw rest r hcont hlo hhi
    simp only [lenField] at hlo hhi
    simp only [residueWalk, lenField]
    rcases hcont with h | h <;> simp [h, hlo, hhi]
  · intro cyc ck dir curr sw rest r hcont hout
    have hspan : (decide (residueStart dir sw ≤ curr)
        && decide (curr ≤ residueStart dir sw + (sw.desc.dcmd &&& DCMD_LENGTH))) = false := by
      rcases Classical.em (residueStart dir sw ≤ curr) with hlo | hlo
      · have : ¬curr ≤ residueStart dir sw + (sw.desc.dcmd &&& DCMD_LENGTH) := by
          intro hhi
          exact hout ⟨hlo, hhi⟩
        simp [this]
      · simp [hlo]
    simp only [residueWalk, hspan]
    rcases hcont with h | h <;> simp [h]
  · intro ck dir curr sw rest r p hirq hck
    simp only [residueWalk, hirq, hck, lenField]
    cases p with
    | true => simp
    | false =>
      simp only [Bool.false_eq_true, if_false, Bool.or_self, Bool.not_true,
        Bool.false_or]
      by_cases hlo : residueStart dir sw ≤ curr
      · by_cases hhi : curr ≤ residueStart dir sw + (sw.desc.dcmd &&& DCMD_LENGTH)
        · simp [hlo, hhi]
        · simp [hlo, hhi]
      · simp [hlo]
  · intro ck dir curr sw rest r p hirq hck
    simp only [residueWalk, hirq, hck]
    simp [hck]

/-- Witness for C7: on a channel without a bound physical channel the
residue is the cached value; the walk clauses evaluated at a one-element
queue. -/
theorem claim_C7_witness :
    mmp_pdma_residue (c5Sys.chan 0) 7 9 1 = (c5Sys.chan 0).bytesResidue ∧
    residueWalk false 1 Dir.memToMem 50 [] 3 true = 3 :=
  ⟨claim_C7_residue.1 (c5Sys.chan 0) 7 9 1 (by decide),
   (claim_C7_residue.2.2.1 false 1 Dir.memToMem 50 3).1⟩

/-! ## Claim C10 -/

/-- **C10 (code bug).**  `mmp_pdma_chan_handler` guards the first tasklet
schedule with `if (pchan)` but then unconditionally executes
`tasklet_schedule(&phy->vchan->tasklet)`, dereferencing the absent
binding: for every view with the channel's `DINT` bit set and no bound
logical channel the handler hits a null dereference (concrete instance:
channel 2, `DINT = BIT(2)`).  The claim's other half does hold: when the
channel's interrupt-status bit is clear the handler returns `IRQ_NONE`
with no register write and no tasklet schedule. -/
theorem claim_C10_handler_null_deref :
    (∀ v : PhyIrqView, v.vchan = none → v.dint &&& 2 ^ v.idx ≠ 0 →
      (mmp_pdma_chan_handler v).1 = .nullDeref) ∧
    mmp_pdma_chan_handler { idx := 2, dint := 4, dcsr := 77, vchan := none }
      = (.nullDeref, [.writeDcsr 2 77]) ∧
    (∀ v : PhyIrqView, v.dint &&& 2 ^ v.idx = 0 →
      mmp_pdma_chan_handler v = (.irqNone, [])) := by
  refine ⟨?_, by decide, ?_⟩
  · intro v hnone hbit
    unfold mmp_pdma_chan_handler clear_chan_irq
    rw [if_neg hbit, hnone]
    rfl
  · intro v hbit
    unfold mmp_pdma_chan_handler clear_chan_irq
    rw [if_pos hbit]
    rfl

/-- Witness for C10 at the concrete failing input. -/
theorem claim_C10_witness :
    (mmp_pdma_chan_handler { idx := 2, dint := 4, dcsr := 77, vchan := none }).1
      = .nullDeref ∧
    mmp_pdma_chan_handler { idx := 2, dint := 0, dcsr := 77, vchan := none }
      = (.irqNone, []) :=
  ⟨claim_C10_handler_null_deref.1 _ (by decide) (by decide),
   claim_C10_handler_null_deref.2.2 _ (by decide)⟩

/-! ## Claim C6: model infrastructure

A chain handed to `submit` has the shape every builder (plus the client's
callback registration) produces: non-empty, the stop marker and the
end-of-chain interrupt flag exactly on the last descriptor, and a client
callback at most on the head descriptor (the transaction the builder
returned). -/

theorem getD_eq_getElem {α : Type} (l : List α) (i : Nat) (d : α)
    (h : i < l.length) : l.getD i d = l[i] := by
  rw [List.getD_eq_getElem?_getD, List.getElem?_eq_getElem h]
  rfl

theorem chainShape_tail (d d2 : DescSw) (t : List DescSw)
    (h : ChainShape (d :: d2 :: t)) : ChainShape (d2 :: t) := by
  obtain ⟨-, hmid, hlast1, hlast2, hcb⟩ := h
  refine ⟨by simp, ?_, ?_, ?_, ?_⟩
  · intro i hi
    have := hmid (i + 1) (by simpa using hi)
    simpa using this
  · have := hlast1
    simp only [List.length_cons, Nat.add_sub_cancel] at this ⊢
    rwa [show t.length + 1 = t.length + 1 from rfl, List.getD_cons_succ] at this
  · have := hlast2
    simp only [List.length_cons, Nat.add_sub_cancel] at this ⊢
    rwa [List.getD_cons_succ] at this
  · intro i hpos hi
    have := hcb (i + 1) (by omega) (by simpa using hi)
    simpa using this

/-- A builder-shaped chain at the front of the pending queue is exactly
what the stop-marker split peels off. -/
theorem splitAfterStop_of_shape :
    ∀ ch : List DescSw, ChainShape ch → ∀ rest, splitAfterStop (ch ++ rest) = (ch, rest) := by
  intro ch
  induction ch with
  | nil => intro h; exact absurd rfl h.1
  | cons d t ih =>
    intro h rest
    cases t with
    | nil =>
      have hstop : stopFlag d = true := by
        have := h.2.2.2.1
        simpa using this
      simp [splitAfterStop, hstop]
    | cons d2 t2 =>
      have hstop : stopFlag d = false := by
        have := (h.2.1 0 (by simp)).2
        simpa using this
      have hrec := ih (chainShape_tail d d2 t2 h) rest
      have hstep : splitAfterStop (d :: ((d2 :: t2) ++ rest))
          = (d :: (splitAfterStop ((d2 :: t2) ++ rest)).1,
             (splitAfterStop ((d2 :: t2) ++ rest)).2) := by
        conv_lhs => rw [splitAfterStop]
        rw [if_neg (by simp [hstop])]
      rw [List.cons_append, hstep, hrec]

/-- A builder-shaped chain at the front of the running queue is exactly
what the cleanup collector peels off — reversed, because `list_move`
inserts at the head of `chain_cleanup`. -/
theorem collectCleanup_of_shape :
    ∀ ch : List DescSw, ChainShape ch → ∀ acc rest,
      collectCleanup acc (ch ++ rest) = (ch.reverse ++ acc, rest) := by
  intro ch
  induction ch with
  | nil => intro h; exact absurd rfl h.1
  | cons d t ih =>
    intro h acc rest
    cases t with
    | nil =>
      have hirq : endIrq d = true := by
        have := h.2.2.1
        simpa using this
      simp [collectCleanup, hirq]
    | cons d2 t2 =>
      have hirq : endIrq d = false := by
        have := (h.2.1 0 (by simp)).1
        simpa using this
      have hrec := ih (chainShape_tail d d2 t2 h) (d :: acc) rest
      have hstep : collectCleanup acc (d :: ((d2 :: t2) ++ rest))
          = collectCleanup (d :: acc) ((d2 :: t2) ++ rest) := by
        conv_lhs => rw [collectCleanup]
        rw [if_neg (by simp [hirq])]
      rw [List.cons_append, hstep, hrec]
      simp [List.reverse_cons, List.append_assoc]

/-- Only the head of a builder-shaped chain can carry a client callback,
so the cleanup pass invokes at most that one callback. -/
theorem callbackCookies_of_shape (ch : List DescSw) (h : ChainShape ch) :
    callbackCookies ch.reverse
      = (if (ch.getD 0 default).hasCallback then [(ch.getD 0 default).cookie] else []) := by
  obtain ⟨hne, -, -, -, hcb⟩ := h
  cases ch with
  | nil => exact absurd rfl hne
  | cons hd tl =>
    have htl : ∀ x ∈ tl, x.hasCallback = false := by
      intro x hx
      obtain ⟨i, hi, rfl⟩ := List.getElem_of_mem hx
      have := hcb (i + 1) (by omega) (by simpa using hi)
      rwa [List.getD_cons_succ, getD_eq_getElem tl i default hi] at this
    unfold callbackCookies
    rw [List.reverse_cons, List.filter_append]
    have hnil : tl.reverse.filter (·.hasCallback) = [] := by
      rw [List.filter_eq_nil_iff]
      intro x hx
      simp only [List.mem_reverse] at hx
      simp [htl x hx]
    rw [hnil, List.nil_append, List.getD_cons_zero]
    by_cases hcbh : hd.hasCallback
    · simp [List.filter, hcbh]
    · simp [List.filter, hcbh]

/-- Closed form of cookie assignment: length preserved, final counter
advanced by the chain length, and the descriptor at index `i` is the
original one with cookie `ctr + 1 + i`. -/
theorem assignCookies_spec :
    ∀ (chain : List DescSw) (ctr : Int),
      (assignCookies ctr chain).1.length = chain.length ∧
      (assignCookies ctr chain).2 = ctr + chain.length ∧
      (∀ i, i < chain.length →
        (assignCookies ctr chain).1.getD i default
          = { chain.getD i default with cookie := ctr + 1 + i }) := by
  intro chain
  induction chain with
  | nil => intro ctr; refine ⟨rfl, by simp [assignCookies], ?_⟩; intro i hi; simp at hi
  | cons d rest ih =>
    intro ctr
    obtain ⟨ihl, ihf, ihg⟩ := ih (ctr + 1)
    have hunf : assignCookies ctr (d :: rest)
        = ({ d with cookie := ctr + 1 } :: (assignCookies (ctr + 1) rest).1,
           (assignCookies (ctr + 1) rest).2) := rfl
    refine ⟨?_, ?_, ?_⟩
    · rw [hunf]; simp [ihl]
    · rw [hunf]; simp only [ihf, List.length_cons]; push_cast; ring
    · intro i hi
      rw [hunf]
      cases i with
      | zero => simp
      | succ j =>
        have hj : j < rest.length := by simpa using hi
        have := ihg j hj
        simp only [List.getD_cons_succ, this]
        have : ctr + 1 + 1 + (j : Int) = ctr + 1 + ((j : Int) + 1) := by ring
        rw [this]
        push_cast
        rfl

theorem assignCookies_shape (chain : List DescSw) (ctr : Int)
    (h : ChainShape chain) : ChainShape (assignCookies ctr chain).1 := by
  obtain ⟨hl, hf, hg⟩ := assignCookies_spec chain ctr
  obtain ⟨hne, hmid, hlast1, hlast2, hcb⟩ := h
  have hlen0 : 0 < chain.length := List.length_pos.mpr hne
  refine ⟨?_, ?_, ?_, ?_, ?_⟩
  · intro hnil; rw [hnil] at hl; simp at hl; omega
  · intro i hi
    rw [hl] at hi
    rw [hg i (by omega)]
    exact hmid i hi
  · rw [hl, hg (chain.length - 1) (by omega)]
    exact hlast1
  · rw [hl, hg (chain.length - 1) (by omega)]
    exact hlast2
  · intro i hpos hi
    rw [hl] at hi
    rw [hg i hi]
    exact hcb i hpos hi

/-- Cookies assigned by one submit are strictly increasing in chain order
and lie in `(ctr, ctr + length]`. -/
theorem assignCookies_sorted (chain : List DescSw) (ctr : Int) :
    List.Pairwise (· < ·) ((assignCookies ctr chain).1.map (·.cookie)) ∧
    (∀ x ∈ (assignCookies ctr chain).1.map (·.cookie),
      ctr < x ∧ x ≤ ctr + chain.length) := by
  obtain ⟨hl, -, hg⟩ := assignCookies_spec chain ctr
  have hcook : ∀ i (hi : i < (assignCookies ctr chain).1.length),
      ((assignCookies ctr chain).1[i]).cookie = ctr + 1 + i := by
    intro i hi
    have hic : i < chain.length := by rwa [hl] at hi
    have := hg i hic
    rw [getD_eq_getElem _ i default hi] at this
    rw [this]
  constructor
  · rw [List.pairwise_iff_getElem]
    intro i j hi hj hij
    simp only [List.length_map] at hi hj
    rw [List.getElem_map, List.getElem_map, hcook i hi, hcook j hj]
    omega
  · intro x hx
    simp only [List.mem_map] at hx
    obtain ⟨d, hd, rfl⟩ := hx
    obtain ⟨i, hi, rfl⟩ := List.getElem_of_mem hd
    rw [hcook i hi]
    have hic : i < chain.length := by rwa [hl] at hi
    omega

theorem setChan_length (s : Sys) (cid : Nat) (c : Chan) :
    (s.setChan cid c).chans.length = s.chans.length := by
  show (s.chans.set cid c).length = _
  simp

theorem free_phy_chan_self (s : Sys) (cid : Nat) (hcid : cid < s.chans.length) :
    (mmp_pdma_free_phy s cid).chan cid = { s.chan cid with phy := none } := by
  cases hphy : (s.chan cid).phy with
  | none =>
    simp only [mmp_pdma_free_phy, hphy]
    exact (chan_eta_phy_none _ hphy).symm
  | some i =>
    simp only [mmp_pdma_free_phy, hphy]
    show (s.setChan cid { s.chan cid with phy := none }).chan cid = _
    exact chan_setChan_self _ _ _ hcid

theorem free_phy_chan_other (s : Sys) (cid cid' : Nat) (h : cid ≠ cid') :
    (mmp_pdma_free_phy s cid).chan cid' = s.chan cid' := by
  cases hphy : (s.chan cid).phy with
  | none => simp only [mmp_pdma_free_phy, hphy]
  | some i =>
    simp only [mmp_pdma_free_phy, hphy]
    show (s.setChan cid { s.chan cid with phy := none }).chan cid' = _
    exact chan_setChan_ne _ _ _ _ h

theorem free_phy_length (s : Sys) (cid : Nat) :
    (mmp_pdma_free_phy s cid).chans.length = s.chans.length := by
  cases hphy : (s.chan cid).phy with
  | none => simp only [mmp_pdma_free_phy, hphy]
  | some i =>
    simp only [mmp_pdma_free_phy, hphy]
    exact setChan_length s cid _

/-- Exhaustive branch characterization of `start_pending_queue`, with the
guard facts of each branch: unchanged state (in-progress, or nothing
acquirable), the release-only branch, or the activation branch with the
acquisition step `s₁` and the activated channel record. -/
theorem spq_cases (s : Sys) (cid : Nat) (hcid : cid < s.chans.length) :
    start_pending_queue s cid = s ∨
    (start_pending_queue s cid = mmp_pdma_free_phy s cid ∧
      (s.chan cid).status ≠ .inProgress ∧ (s.chan cid).pending = []) ∨
    ∃ i s₁,
      ((s₁ = s ∧ (s.chan cid).phy = some i) ∨
        ((s.chan cid).phy = none ∧
          lookup_phy s.bindings.length s.reserved s.bindings (s.chan cid).drcmr
            = some i ∧
          s₁ = { s.setChan cid { s.chan cid with phy := some i } with
                  bindings := s.bindings.set i (some cid) })) ∧
      (s.chan cid).pending ≠ [] ∧
      start_pending_queue s cid
        = s₁.setChan cid { s.chan cid with
            phy := some i
            pending := (splitAfterStop (s.chan cid).pending).2
            running := (s.chan cid).running ++ (splitAfterStop (s.chan cid).pending).1
            programmed := some (((s.chan cid).running
              ++ (splitAfterStop (s.chan cid).pending).1).headI.phys)
            hwRun := true
            status := .inProgress
            bytesResidue := 0 } := by
  by_cases hst : (s.chan cid).status = .inProgress
  · left
    unfold start_pending_queue
    rw [if_pos hst]
  · by_cases hpend : (s.chan cid).pending = []
    · right; left
      have hempty : (s.chan cid).pending.isEmpty = true := by rw [hpend]; rfl
      refine ⟨?_, hst, hpend⟩
      unfold start_pending_queue
      rw [if_neg hst, if_pos hempty]
    · have hempty : (s.chan cid).pending.isEmpty = false := by
        cases hp : (s.chan cid).pending
        · exact absurd hp hpend
        · rfl
      rcases hsp : splitAfterStop (s.chan cid).pending with ⟨taken, rest⟩
      cases hphy : (s.chan cid).phy with
      | some i =>
        right; right
        refine ⟨i, s, Or.inl ⟨rfl, rfl⟩, hpend, ?_⟩
        have heq : start_pending_queue s cid
            = s.setChan cid { s.chan cid with
                pending := rest
                running := (s.chan cid).running ++ taken
                programmed := some (((s.chan cid).running ++ taken).headI.phys)
                hwRun := true
                status := .inProgress
                bytesResidue := 0 } := by
          simp only [start_pending_queue, hempty, hphy, Bool.false_eq_true,
            if_false, if_neg hst, hsp]
        rw [heq, ← hphy]
      | none =>
        cases hlook : lookup_phy s.bindings.length s.reserved s.bindings
            (s.chan cid).drcmr with
        | none =>
          left
          simp only [start_pending_queue, hempty, hphy, hlook,
            Bool.false_eq_true, if_false, if_neg hst]
        | some i =>
          right; right
          refine ⟨i, _, Or.inr ⟨rfl, rfl, rfl⟩, hpend, ?_⟩
          have hchan2 : ({ s.setChan cid { s.chan cid with phy := some i } with
              bindings := s.bindings.set i (some cid) }).chan cid
              = { s.chan cid with phy := some i } := by
            show (s.setChan cid { s.chan cid with phy := some i }).chan cid = _
            exact chan_setChan_self _ _ _ hcid
          simp only [start_pending_queue, hempty, hphy, hlook,
            Bool.false_eq_true, if_false, if_neg hst, hchan2, hsp]

theorem spq_length (s : Sys) (cid : Nat) (hcid : cid < s.chans.length) :
    (start_pending_queue s cid).chans.length = s.chans.length := by
  rcases spq_cases s cid hcid with heq | ⟨heq, -, -⟩ | ⟨i, s₁, hacq, -, heq⟩
  · rw [heq]
  · rw [heq]; exact free_phy_length s cid
  · rw [heq]
    rcases hacq with ⟨rfl, -⟩ | ⟨-, -, rfl⟩
    · exact setChan_length _ _ _
    · rw [setChan_length]
      exact setChan_length s cid _

theorem spq_chan_other (s : Sys) (cid : Nat) (hcid : cid < s.chans.length)
    (cid' : Nat) (h : cid' ≠ cid) :
    (start_pending_queue s cid).chan cid' = s.chan cid' := by
  rcases spq_cases s cid hcid with heq | ⟨heq, -, -⟩ | ⟨i, s₁, hacq, -, heq⟩
  · rw [heq]
  · rw [heq]; exact free_phy_chan_other s cid cid' (fun hh => h hh.symm)
  · rw [heq, chan_setChan_ne _ _ _ _ (fun hh => h hh.symm)]
    rcases hacq with ⟨rfl, -⟩ | ⟨-, -, rfl⟩
    · rfl
    · show (s.setChan cid _).chan cid' = _
      exact chan_setChan_ne _ _ _ _ (fun hh => h hh.symm)

/-- Activating the pending queue preserves the per-channel invariant and
leaves the callback log, the observable cookie sequence and the cookie
counter untouched: it only moves whole builder-shaped chains from pending
to running. -/
theorem spq_chan_self_preserves (s : Sys) (cid : Nat)
    (hcid : cid < s.chans.length) (hinv : ChanInv (s.chan cid)) :
    ChanInv ((start_pending_queue s cid).chan cid) ∧
    ((start_pending_queue s cid).chan cid).log = (s.chan cid).log ∧
    totalCookies ((start_pending_queue s cid).chan cid)
      = totalCookies (s.chan cid) ∧
    ((start_pending_queue s cid).chan cid).cookieCtr
      = (s.chan cid).cookieCtr := by
  rcases spq_cases s cid hcid with heq | ⟨heq, -, -⟩ | ⟨i, s₁, hacq, hpend, heq⟩
  · rw [heq]; exact ⟨hinv, rfl, rfl, rfl⟩
  · rw [heq, free_phy_chan_self s cid hcid]
    exact ⟨hinv, rfl, rfl, rfl⟩
  · have hchan : (start_pending_queue s cid).chan cid
        = { s.chan cid with
            phy := some i
            pending := (splitAfterStop (s.chan cid).pending).2
            running := (s.chan cid).running ++ (splitAfterStop (s.chan cid).pending).1
            programmed := some (((s.chan cid).running
              ++ (splitAfterStop (s.chan cid).pending).1).headI.phys)
            hwRun := true
            status := .inProgress
            bytesResidue := 0 } := by
      rw [heq]
      rcases hacq with ⟨rfl, -⟩ | ⟨-, -, rfl⟩
      · exact chan_setChan_self _ _ _ hcid
      · refine chan_setChan_self _ _ _ ?_
        show cid < (s.chans.set cid _).length
        simpa using hcid
    obtain ⟨⟨rcs, hrcs, hrsh⟩, ⟨pcs, hpcs, hpsh⟩, hsort, hbound, hcyc⟩ := hinv
    cases pcs with
    | nil =>
      rw [hpcs] at hpend
      exact absurd rfl hpend
    | cons p1 prest =>
      have hp1 : ChainShape p1 := hpsh p1 (List.mem_cons_self _ _)
      have hsp : splitAfterStop (s.chan cid).pending = (p1, prest.flatten) := by
        rw [hpcs, List.flatten_cons]
        exact splitAfterStop_of_shape p1 hp1 prest.flatten
      have hsp1 : (splitAfterStop (s.chan cid).pending).1 = p1 := by rw [hsp]
      have hsp2 : (splitAfterStop (s.chan cid).pending).2 = prest.flatten := by
        rw [hsp]
      rw [hchan]
      have htot : totalCookies { s.chan cid with
            phy := some i
            pending := (splitAfterStop (s.chan cid).pending).2
            running := (s.chan cid).running ++ (splitAfterStop (s.chan cid).pending).1
            programmed := some (((s.chan cid).running
              ++ (splitAfterStop (s.chan cid).pending).1).headI.phys)
            hwRun := true
            status := .inProgress
            bytesResidue := 0 } = totalCookies (s.chan cid) := by
        show (s.chan cid).log
            ++ (((s.chan cid).running ++ (splitAfterStop (s.chan cid).pending).1)
                ++ (splitAfterStop (s.chan cid).pending).2).map (·.cookie)
            = totalCookies (s.chan cid)
        rw [hsp1, hsp2, List.append_assoc, ← List.flatten_cons, ← hpcs]
        rfl
      refine ⟨⟨⟨rcs ++ [p1], ?_, ?_⟩, ⟨prest, hsp2, ?_⟩, ?_, ?_, hcyc⟩,
        rfl, htot, rfl⟩
      · show (s.chan cid).running ++ (splitAfterStop (s.chan cid).pending).1
            = (rcs ++ [p1]).flatten
        rw [hsp1, List.flatten_append, List.flatten_cons, List.flatten_nil,
          List.append_nil, hrcs]
      · intro ch hch
        rcases List.mem_append.mp hch with h1 | h1
        · exact hrsh ch h1
        · rw [List.mem_singleton.mp h1]
          exact hp1
      · intro ch hch
        exact hpsh ch (List.mem_cons_of_mem _ hch)
      · rw [htot]; exact hsort
      · intro x hx
        rw [htot] at hx
        exact hbound x hx

theorem dma_do_tasklet_eq (s : Sys) (cid dt ds : Nat)
    (hst : ¬(s.chan cid).status = .complete)
    (hcyc : (s.chan cid).cyclicFirst = none) :
    dma_do_tasklet s cid dt ds
      = taskletOut s cid
          (match (s.chan cid).running.find? (fun d => endIrq d) with
           | some d => mmp_pdma_residue (s.chan cid) dt ds d.cookie
           | none => (s.chan cid).bytesResidue)
          (collectCleanup [] (s.chan cid).running).1
          (collectCleanup [] (s.chan cid).running).2 := by
  cases hfind : (s.chan cid).running.find? (fun d => endIrq d) with
  | none =>
    simp only [dma_do_tasklet, if_neg hst, hcyc, hfind, taskletOut, taskletMid]
  | some d =>
    simp only [dma_do_tasklet, if_neg hst, hcyc, hfind, taskletOut, taskletMid]

/-- A channel whose queues are cleared satisfies the invariant whatever
else changed, as long as its log was already consistent. -/
theorem chanInv_clear (c : Chan)
    (hsort : List.Pairwise (· < ·) (totalCookies c))
    (hbound : ∀ x ∈ totalCookies c, x ≤ c.cookieCtr)
    (hcyc : c.cyclicFirst = none)
    (st : Status) (hw : Bool) (ph : Option Nat) (B : Nat) :
    ChanInv { c with hwRun := hw, status := st, phy := ph, pending := [], running := [], bytesResidue := B } := by
  have htot : totalCookies { c with hwRun := hw, status := st, phy := ph, pending := [], running := [], bytesResidue := B } = c.log := by
    simp [totalCookies]
  refine ⟨⟨[], rfl, by simp⟩, ⟨[], rfl, by simp⟩, ?_, ?_, hcyc⟩
  · rw [htot]
    unfold totalCookies at hsort
    exact hsort.sublist (List.sublist_append_left _ _)
  · intro x hx
    rw [htot] at hx
    refine hbound x ?_
    unfold totalCookies
    exact List.mem_append_left _ hx

/-- `mmp_pdma_tx_submit` preserves the channel invariant for a
builder-shaped chain: the new cookies extend the observable sequence
strictly above everything recorded so far. -/
theorem submit_chan_preserves (c : Chan) (chain : List DescSw)
    (hsh : ChainShape chain) (hinv : ChanInv c) :
    ChanInv (mmp_pdma_tx_submit c chain).1 := by
  obtain ⟨⟨rcs, hrcs, hrsh⟩, ⟨pcs, hpcs, hpsh⟩, hsort, hbound, hcyc⟩ := hinv
  obtain ⟨hlen, hctr, -⟩ := assignCookies_spec chain c.cookieCtr
  obtain ⟨hsorted, hrange⟩ := assignCookies_sorted chain c.cookieCtr
  have hres : (mmp_pdma_tx_submit c chain).1
      = { c with pending := c.pending ++ (assignCookies c.cookieCtr chain).1, cookieCtr := (assignCookies c.cookieCtr chain).2 } := rfl
  rw [hres]
  have htot : totalCookies { c with pending := c.pending ++ (assignCookies c.cookieCtr chain).1, cookieCtr := (assignCookies c.cookieCtr chain).2 }
      = totalCookies c
        ++ (assignCookies c.cookieCtr chain).1.map (·.cookie) := by
    show c.log ++ ((c.running ++ (c.pending ++ _)).map _) = _
    rw [← List.append_assoc c.running, List.map_append, ← List.append_assoc]
    rfl
  refine ⟨⟨rcs, hrcs, hrsh⟩,
    ⟨pcs ++ [(assignCookies c.cookieCtr chain).1], ?_, ?_⟩, ?_, ?_, hcyc⟩
  · show c.pending ++ _ = _
    rw [List.flatten_append, List.flatten_cons, List.flatten_nil,
      List.append_nil, hpcs]
  · intro ch hch
    rcases List.mem_append.mp hch with h1 | h1
    · exact hpsh ch h1
    · rw [List.mem_singleton.mp h1]
      exact assignCookies_shape chain c.cookieCtr hsh
  · rw [htot, List.pairwise_append]
    refine ⟨hsort, hsorted, ?_⟩
    intro a ha b hb
    have h1 := hbound a ha
    have h2 := (hrange b hb).1
    omega
  · intro x hx
    rw [htot] at hx
    show x ≤ (assignCookies c.cookieCtr chain).2
    rw [hctr]
    rcases List.mem_append.mp hx with h1 | h1
    · have := hbound x h1
      omega
    · have := (hrange x h1).2
      omega

theorem pause_preserves (s : Sys) (cid : Nat) (hr : cid < s.chans.length)
    (hinv : ∀ cid', ChanInv (s.chan cid')) :
    (∀ cid', ChanInv ((mmp_pdma_pause_chan s cid).chan cid')) ∧
    (mmp_pdma_pause_chan s cid).chans.length = s.chans.length := by
  cases hphy : (s.chan cid).phy with
  | none =>
    have heq : mmp_pdma_pause_chan s cid = s := by
      simp only [mmp_pdma_pause_chan, hphy]
    rw [heq]; exact ⟨hinv, rfl⟩
  | some i =>
    have heq : mmp_pdma_pause_chan s cid
        = s.setChan cid { s.chan cid with hwRun := false, status := .paused } := by
      simp only [mmp_pdma_pause_chan, hphy]
    rw [heq]
    refine ⟨?_, setChan_length _ _ _⟩
    intro cid'
    by_cases hc : cid' = cid
    · subst hc
      rw [chan_setChan_self _ _ _ hr]
      exact hinv cid'
    · rw [chan_setChan_ne _ _ _ _ (fun hh => hc hh.symm)]
      exact hinv cid'

theorem terminate_preserves (s : Sys) (cid : Nat) (hr : cid < s.chans.length)
    (hinv : ∀ cid', ChanInv (s.chan cid')) :
    (∀ cid', ChanInv ((mmp_pdma_terminate_all s cid).chan cid')) ∧
    (mmp_pdma_terminate_all s cid).chans.length = s.chans.length := by
  have hr1 : cid < (s.setChan cid { s.chan cid with hwRun := false, status := Status.complete }).chans.length := by
    rw [setChan_length]; exact hr
  have heq : mmp_pdma_terminate_all s cid
      = (mmp_pdma_free_phy (s.setChan cid { s.chan cid with hwRun := false, status := Status.complete }) cid).setChan cid
        { (mmp_pdma_free_phy (s.setChan cid { s.chan cid with hwRun := false, status := Status.complete }) cid).chan cid with
          pending := []
          running := []
          bytesResidue := 0 } := rfl
  have hc2 : (mmp_pdma_free_phy (s.setChan cid { s.chan cid with hwRun := false, status := Status.complete }) cid).chan cid
      = { s.chan cid with hwRun := false, status := Status.complete, phy := none } := by
    rw [free_phy_chan_self _ _ hr1, chan_setChan_self _ _ _ hr]
  have hr2 : cid < (mmp_pdma_free_phy (s.setChan cid { s.chan cid with hwRun := false, status := Status.complete }) cid).chans.length := by
    rw [free_phy_length, setChan_length]; exact hr
  rw [heq]
  refine ⟨?_, ?_⟩
  · intro cid'
    by_cases hc : cid' = cid
    · subst hc
      rw [chan_setChan_self _ _ _ hr2, hc2]
      obtain ⟨-, -, hsort, hbound, hcyc⟩ := hinv cid'
      exact chanInv_clear (s.chan cid') hsort hbound hcyc _ _ _ _
    · rw [chan_setChan_ne _ _ _ _ (fun hh => hc hh.symm),
        free_phy_chan_other _ _ _ (fun hh => hc hh.symm),
        chan_setChan_ne _ _ _ _ (fun hh => hc hh.symm)]
      exact hinv cid'
  · rw [setChan_length, free_phy_length, setChan_length]

/-- Core of the tasklet proof: given the cleanup split of the running
queue (`CL`, `RS`), the assembled tasklet final state preserves every
channel invariant.  The cleanup batch contributes at most its chain-head
cookie to the log, below every cookie still queued. -/
theorem taskletOut_preserves (s : Sys) (cid : Nat) (hr : cid < s.chans.length)
    (hinv : ∀ cid', ChanInv (s.chan cid')) (B : Nat) (CL RS : List DescSw)
    (hcase :
      (CL = [] ∧ RS = [] ∧ (s.chan cid).running = []) ∨
      (∃ r1 rrest, ChainShape r1 ∧ (∀ ch ∈ rrest, ChainShape ch) ∧
        (s.chan cid).running = r1 ++ List.flatten rrest ∧
        CL = r1.reverse ∧ RS = List.flatten rrest)) :
    (∀ cid', ChanInv ((taskletOut s cid B CL RS).chan cid')) ∧
    (taskletOut s cid B CL RS).chans.length = s.chans.length := by
  have hrmid : cid < (taskletMid s cid B RS).chans.length := by
    show cid < (s.chans.set cid _).length
    simpa using hr
  have hmidself : (taskletMid s cid B RS).chan cid
      = { s.chan cid with running := RS, status := if RS.isEmpty then Status.complete else Status.inProgress, bytesResidue := B } :=
    chan_setChan_self _ _ _ hr
  have hmidother : ∀ cid', cid' ≠ cid →
      (taskletMid s cid B RS).chan cid' = s.chan cid' :=
    fun cid' h => chan_setChan_ne _ _ _ _ (fun hh => h hh.symm)
  obtain ⟨-, ⟨pcs, hpcs, hpsh⟩, hsort, hbound, hcyc⟩ := hinv cid
  have hQm : List.Sublist
      (callbackCookies CL ++ ((RS ++ (s.chan cid).pending).map (·.cookie)))
      (((s.chan cid).running ++ (s.chan cid).pending).map (·.cookie)) := by
    rcases hcase with ⟨hCL, hRS, hrun⟩ | ⟨r1, rrest, hr1, -, hrun, hCL, hRS⟩
    · subst hCL; subst hRS
      rw [hrun]
      exact List.Sublist.refl _
    · subst hCL; subst hRS
      rw [hrun, List.append_assoc]
      simp only [List.map_append]
      refine List.Sublist.append ?_ (List.Sublist.refl _)
      rw [callbackCookies_of_shape r1 hr1]
      cases r1 with
      | nil => exact absurd rfl hr1.1
      | cons hd tl =>
        by_cases hcb : hd.hasCallback
        · simp only [List.getD_cons_zero, if_pos hcb, List.map_cons]
          exact List.cons_sublist_cons.mpr (List.nil_sublist _)
        · simp only [List.getD_cons_zero, if_neg hcb]
          exact List.nil_sublist _
  have hsubmid : List.Sublist
      (totalCookies { s.chan cid with running := RS, status := if RS.isEmpty then Status.complete else Status.inProgress, bytesResidue := B })
      (totalCookies (s.chan cid)) := by
    show List.Sublist
      ((s.chan cid).log ++ ((RS ++ (s.chan cid).pending).map (·.cookie))) _
    unfold totalCookies
    rcases hcase with ⟨-, hRS, hrun⟩ | ⟨r1, rrest, -, -, hrun, -, hRS⟩
    · subst hRS; rw [hrun]
    · subst hRS
      rw [hrun, List.append_assoc]
      simp only [List.map_append]
      exact (List.append_sublist_append_left _).mpr
        (List.sublist_append_right _ _)
  have hmidinv : ChanInv ((taskletMid s cid B RS).chan cid) := by
    rw [hmidself]
    refine ⟨?_, ⟨pcs, hpcs, hpsh⟩, hsort.sublist hsubmid,
      fun x hx => hbound x (hsubmid.subset hx), hcyc⟩
    rcases hcase with ⟨-, hRS, -⟩ | ⟨r1, rrest, -, hrsh, -, -, hRS⟩
    · subst hRS; exact ⟨[], rfl, by simp⟩
    · subst hRS; exact ⟨rrest, rfl, hrsh⟩
  obtain ⟨h3inv, hlog3, htot3, hctr3⟩ :=
    spq_chan_self_preserves (taskletMid s cid B RS) cid hrmid hmidinv
  have hr3 : cid < (start_pending_queue (taskletMid s cid B RS) cid).chans.length := by
    rw [spq_length _ _ hrmid]; exact hrmid
  have hfin : (taskletOut s cid B CL RS).chan cid
      = { (start_pending_queue (taskletMid s cid B RS) cid).chan cid with
          log := ((start_pending_queue (taskletMid s cid B RS) cid).chan cid).log ++ callbackCookies CL } := by
    unfold taskletOut
    exact chan_setChan_self _ _ _ hr3
  have hlog3' : ((start_pending_queue (taskletMid s cid B RS) cid).chan cid).log
      = (s.chan cid).log := by
    rw [hlog3, hmidself]
  have hctr3' : ((start_pending_queue (taskletMid s cid B RS) cid).chan cid).cookieCtr
      = (s.chan cid).cookieCtr := by
    rw [hctr3, hmidself]
  have htotmid : totalCookies { s.chan cid with running := RS, status := if RS.isEmpty then Status.complete else Status.inProgress, bytesResidue := B }
      = (s.chan cid).log ++ ((RS ++ (s.chan cid).pending).map (·.cookie)) := rfl
  have hQ3 : (((start_pending_queue (taskletMid s cid B RS) cid).chan cid).running
        ++ ((start_pending_queue (taskletMid s cid B RS) cid).chan cid).pending).map (·.cookie)
      = (RS ++ (s.chan cid).pending).map (·.cookie) := by
    have h := htot3
    rw [hmidself, htotmid] at h
    unfold totalCookies at h
    rw [hlog3'] at h
    exact List.append_cancel_left h
  refine ⟨?_, ?_⟩
  · intro cid'
    by_cases hc : cid' = cid
    · subst hc
      rw [hfin]
      obtain ⟨hrun3, hpend3, hsort3, hbound3, hcyc3⟩ := h3inv
      refine ⟨hrun3, hpend3, ?_, ?_, hcyc3⟩
      · show List.Pairwise _
          ((((start_pending_queue (taskletMid s cid' B RS) cid').chan cid').log
              ++ callbackCookies CL)
            ++ ((((start_pending_queue (taskletMid s cid' B RS) cid').chan cid').running
              ++ ((start_pending_queue (taskletMid s cid' B RS) cid').chan cid').pending).map (·.cookie)))
        rw [hQ3, hlog3', List.append_assoc]
        unfold totalCookies at hsort
        exact hsort.sublist ((List.append_sublist_append_left _).mpr hQm)
      · intro x hx
        have hx' : x ∈ (s.chan cid').log
            ++ (callbackCookies CL ++ ((RS ++ (s.chan cid').pending).map (·.cookie))) := by
          have hx0 : x ∈ (((start_pending_queue (taskletMid s cid' B RS) cid').chan cid').log
              ++ callbackCookies CL)
            ++ ((((start_pending_queue (taskletMid s cid' B RS) cid').chan cid').running
              ++ ((start_pending_queue (taskletMid s cid' B RS) cid').chan cid').pending).map (·.cookie)) := hx
          rw [hQ3, hlog3', List.append_assoc] at hx0
          exact hx0
        have hmem := (((List.append_sublist_append_left _).mpr hQm).subset) hx'
        have hle := hbound x (by unfold totalCookies; exact hmem)
        show x ≤ ((start_pending_queue (taskletMid s cid' B RS) cid').chan cid').cookieCtr
        rw [hctr3']
        exact hle
    · have hother : (taskletOut s cid B CL RS).chan cid' = s.chan cid' := by
        unfold taskletOut
        rw [chan_setChan_ne _ _ _ _ (fun hh => hc hh.symm),
          spq_chan_other _ _ hrmid _ hc, hmidother cid' hc]
      rw [hother]
      exact hinv cid'
  · unfold taskletOut
    rw [setChan_length, spq_length _ _ hrmid]
    unfold taskletMid
    exact setChan_length _ _ _

theorem tasklet_preserves (s : Sys) (cid dt ds : Nat)
    (hr : cid < s.chans.length) (hinv : ∀ cid', ChanInv (s.chan cid')) :
    (∀ cid', ChanInv ((dma_do_tasklet s cid dt ds).chan cid')) ∧
    (dma_do_tasklet s cid dt ds).chans.length = s.chans.length := by
  by_cases hst : (s.chan cid).status = .complete
  · have heq : dma_do_tasklet s cid dt ds = s := by
      unfold dma_do_tasklet
      rw [if_pos hst]
    rw [heq]
    exact ⟨hinv, rfl⟩
  · have hcyc : (s.chan cid).cyclicFirst = none := (hinv cid).2.2.2.2
    rw [dma_do_tasklet_eq s cid dt ds hst hcyc]
    refine taskletOut_preserves s cid hr hinv _ _ _ ?_
    obtain ⟨⟨rcs, hrcs, hrsh⟩, -⟩ := hinv cid
    cases rcs with
    | nil =>
      left
      have hrun : (s.chan cid).running = [] := by rw [hrcs]; rfl
      rw [hrun]
      exact ⟨rfl, rfl, rfl⟩
    | cons r1 rrest =>
      right
      have hr1 : ChainShape r1 := hrsh r1 (List.mem_cons_self _ _)
      have hrun : (s.chan cid).running = r1 ++ List.flatten rrest := by
        rw [hrcs, List.flatten_cons]
      have hclean : collectCleanup [] (s.chan cid).running
          = (r1.reverse ++ [], List.flatten rrest) := by
        rw [hrun]
        exact collectCleanup_of_shape r1 hr1 [] (List.flatten rrest)
      refine ⟨r1, rrest, hr1,
        fun ch hch => hrsh ch (List.mem_cons_of_mem _ hch), hrun, ?_, ?_⟩
      · rw [hclean]; simp
      · rw [hclean]

/-- One event preserves every channel invariant and the channel count. -/
theorem step_preserves (s : Sys) (e : Event) (hv : ValidEvent e)
    (hre : Event.chanId e < s.chans.length)
    (hinv : ∀ cid, ChanInv (s.chan cid)) :
    (∀ cid, ChanInv ((step s e).chan cid)) ∧
    (step s e).chans.length = s.chans.length := by
  cases e with
  | submit cid chain =>
    have hre' : cid < s.chans.length := hre
    refine ⟨?_, setChan_length _ _ _⟩
    intro cid'
    by_cases hc : cid' = cid
    · subst hc
      show ChanInv ((s.setChan cid' (mmp_pdma_tx_submit (s.chan cid') chain).1).chan cid')
      rw [chan_setChan_self _ _ _ hre']
      exact submit_chan_preserves _ chain hv (hinv cid')
    · show ChanInv ((s.setChan cid (mmp_pdma_tx_submit (s.chan cid) chain).1).chan cid')
      rw [chan_setChan_ne _ _ _ _ (fun hh => hc hh.symm)]
      exact hinv cid'
  | issuePending cid =>
    refine ⟨?_, spq_length _ _ hre⟩
    intro cid'
    by_cases hc : cid' = cid
    · subst hc
      exact (spq_chan_self_preserves s cid' hre (hinv cid')).1
    · show ChanInv ((start_pending_queue s cid).chan cid')
      rw [spq_chan_other s cid hre cid' hc]
      exact hinv cid'
  | tasklet cid dt ds => exact tasklet_preserves s cid dt ds hre hinv
  | pause cid => exact pause_preserves s cid hre hinv
  | terminate cid => exact terminate_preserves s cid hre hinv

/-- A whole trace of valid, in-range events preserves every channel
invariant. -/
theorem runTrace_preserves (events : List Event) : ∀ (s : Sys),
    (∀ e ∈ events, ValidEvent e ∧ Event.chanId e < s.chans.length) →
    (∀ cid, ChanInv (s.chan cid)) →
    (∀ cid, ChanInv ((runTrace s events).chan cid)) ∧
    (runTrace s events).chans.length = s.chans.length := by
  induction events with
  | nil => intro s _ hinv; exact ⟨hinv, rfl⟩
  | cons e rest ih =>
    intro s hv hinv
    have he := hv e (List.mem_cons_self _ _)
    have hstep := step_preserves s e he.1 he.2 hinv
    have hrest : ∀ e' ∈ rest,
        ValidEvent e' ∧ Event.chanId e' < (step s e).chans.length := by
      intro e' he'
      have h := hv e' (List.mem_cons_of_mem _ he')
      exact ⟨h.1, by rw [hstep.2]; exact h.2⟩
    have hih := ih (step s e) hrest hstep.1
    have hrun : runTrace s (e :: rest) = runTrace (step s e) rest := rfl
    rw [hrun]
    exact ⟨hih.1, by rw [hih.2, hstep.2]⟩

/-- **C6.**  Within one logical channel, `mmp_pdma_tx_submit` assigns each
descriptor of the chain a completion token strictly increasing in chain
order (the chain goes onto the pending queue carrying exactly those
tokens), and along any trace of engine events whose submitted chains are
builder-shaped and whose channels are in range, the completion engine
`dma_do_tasklet` invokes client callbacks in strictly increasing token
order: every channel's callback log stays strictly increasing, so the
callback for token N is never invoked before the callback for token
N−1. -/
theorem claim_C6_token_order :
    (∀ (c : Chan) (chain : List DescSw),
      (mmp_pdma_tx_submit c chain).1.pending
        = c.pending ++ (assignCookies c.cookieCtr chain).1 ∧
      List.Pairwise (· < ·)
        ((assignCookies c.cookieCtr chain).1.map (·.cookie))) ∧
    (∀ (s : Sys) (events : List Event),
      (∀ e ∈ events, ValidEvent e ∧ Event.chanId e < s.chans.length) →
      (∀ cid, ChanInv (s.chan cid)) →
      ∀ cid, List.Pairwise (· < ·) (((runTrace s events).chan cid).log)) := by
  constructor
  · intro c chain
    exact ⟨rfl, (assignCookies_sorted chain c.cookieCtr).1⟩
  · intro s events hv hinv cid
    have h := ((runTrace_preserves events s hv hinv).1 cid).2.2.1
    unfold totalCookies at h
    exact h.sublist (List.sublist_append_left _ _)

theorem chanInv_init (d : Nat) : ChanInv (Chan.init d) :=
  ⟨⟨[], rfl, by simp⟩, ⟨[], rfl, by simp⟩,
   by simp [totalCookies, Chan.init],
   by simp [totalCookies, Chan.init], rfl⟩

theorem c6Sys_inv : ∀ cid, ChanInv (c6Sys.chan cid) := by
  intro cid
  cases cid with
  | zero => exact chanInv_init 5
  | succ n => exact chanInv_init 0

theorem c6Desc_shape : ChainShape [c6Desc] := by
  refine ⟨by simp, ?_, by decide, by decide, ?_⟩
  · intro i hi
    simp only [List.length_cons, List.length_nil] at hi
    omega
  · intro i h1 h2
    simp only [List.length_cons, List.length_nil] at h2
    omega

theorem c6Valid : ∀ e ∈ c6Events,
    ValidEvent e ∧ Event.chanId e < c6Sys.chans.length := by
  intro e he
  simp only [c6Events, List.mem_cons, List.not_mem_nil, or_false] at he
  rcases he with rfl | rfl | rfl
  · exact ⟨c6Desc_shape, by decide⟩
  · exact ⟨trivial, by decide⟩
  · exact ⟨trivial, by decide⟩

/-- Witness for C6: on a one-channel engine, submitting a one-descriptor
chain, issuing it and completing it yields the callback log `[1]` — the
assigned token — and the log is strictly increasing. -/
theorem claim_C6_witness :
    (∀ e ∈ c6Events, ValidEvent e ∧ Event.chanId e < c6Sys.chans.length) ∧
    (∀ cid, ChanInv (c6Sys.chan cid)) ∧
    List.Pairwise (· < ·) (((runTrace c6Sys c6Events).chan 0).log) ∧
    ((runTrace c6Sys c6Events).chan 0).log = [1] :=
  ⟨c6Valid, c6Sys_inv,
   claim_C6_token_order.2 c6Sys c6Events c6Valid c6Sys_inv 0, by decide⟩

/-! ## Claim C8: the running-queue invariant -/

/-- The channel-local view of `spq_cases`: after `start_pending_queue` the
channel is unchanged, released, or activated — and an activation reuses
the already-bound physical channel when there is one. -/
theorem spq_chan_self_cases (s : Sys) (cid : Nat) (hr : cid < s.chans.length) :
    (start_pending_queue s cid).chan cid = s.chan cid ∨
    ((start_pending_queue s cid).chan cid = { s.chan cid with phy := none } ∧
      (s.chan cid).status ≠ .inProgress) ∨
    ∃ i, (start_pending_queue s cid).chan cid
        = { s.chan cid with
            phy := some i
            pending := (splitAfterStop (s.chan cid).pending).2
            running := (s.chan cid).running ++ (splitAfterStop (s.chan cid).pending).1
            programmed := some (((s.chan cid).running
              ++ (splitAfterStop (s.chan cid).pending).1).headI.phys)
            hwRun := true
            status := .inProgress
            bytesResidue := 0 } ∧
        ((s.chan cid).phy = some i ∨ (s.chan cid).phy = none) := by
  rcases spq_cases s cid hr with heq | ⟨heq, hst, -⟩ | ⟨i, s₁, hacq, -, heq⟩
  · left; rw [heq]
  · right; left
    rw [heq, free_phy_chan_self _ _ hr]
    exact ⟨rfl, hst⟩
  · right; right
    refine ⟨i, ?_, ?_⟩
    · rw [heq]
      rcases hacq with ⟨rfl, -⟩ | ⟨-, -, rfl⟩
      · exact chan_setChan_self _ _ _ hr
      · refine chan_setChan_self _ _ _ ?_
        show cid < (s.chans.set cid _).length
        simpa using hr
    · rcases hacq with ⟨-, hphy⟩ | ⟨hphy, -, -⟩
      · exact Or.inl hphy
      · exact Or.inr hphy

theorem spq_runInv (s : Sys) (cid : Nat) (hr : cid < s.chans.length)
    (hinv : ∀ cid', RunInv (s.chan cid')) :
    ∀ cid', RunInv ((start_pending_queue s cid).chan cid') := by
  intro cid'
  by_cases hc : cid' = cid
  · subst hc
    rcases spq_chan_self_cases s cid' hr with heq | ⟨heq, hst⟩ | ⟨i, heq, -⟩
    · rw [heq]; exact hinv cid'
    · rw [heq]
      intro h
      exact absurd (hinv cid' h).1 hst
    · rw [heq]
      intro h
      refine ⟨rfl, ?_⟩
      show some i ≠ none
      simp
  · show RunInv ((start_pending_queue s cid).chan cid')
    rw [spq_chan_other s cid hr cid' hc]
    exact hinv cid'

/-- The tasklet's assembled final state keeps `RunInv`: the remaining
running queue is non-empty only if the channel restarted in progress. -/
theorem taskletOut_runInv (s : Sys) (cid : Nat) (hr : cid < s.chans.length)
    (hinv : ∀ cid', RunInv (s.chan cid')) (B : Nat) (CL RS : List DescSw)
    (hRS : RS = [] ∨ (s.chan cid).running ≠ []) :
    ∀ cid', RunInv ((taskletOut s cid B CL RS).chan cid') := by
  have hrmid : cid < (taskletMid s cid B RS).chans.length := by
    show cid < (s.chans.set cid _).length
    simpa using hr
  have hmidself : (taskletMid s cid B RS).chan cid
      = { s.chan cid with running := RS, status := if RS.isEmpty then Status.complete else Status.inProgress, bytesResidue := B } :=
    chan_setChan_self _ _ _ hr
  have hmidother : ∀ cid', cid' ≠ cid →
      (taskletMid s cid B RS).chan cid' = s.chan cid' :=
    fun cid' h => chan_setChan_ne _ _ _ _ (fun hh => h hh.symm)
  have hmidinv : ∀ cid', RunInv ((taskletMid s cid B RS).chan cid') := by
    intro cid'
    by_cases hc : cid' = cid
    · subst hc
      rw [hmidself]
      intro h
      have hne : RS ≠ [] := h
      have hemp : RS.isEmpty = false := by
        cases hx : RS
        · exact absurd hx hne
        · rfl
      refine ⟨?_, ?_⟩
      · show (if RS.isEmpty then Status.complete else Status.inProgress) = _
        rw [hemp]
        rfl
      · show (s.chan cid').phy ≠ none
        rcases hRS with hx | hx
        · exact absurd hx hne
        · exact (hinv cid' hx).2
    · rw [hmidother cid' hc]
      exact hinv cid'
  have hspq := spq_runInv (taskletMid s cid B RS) cid hrmid hmidinv
  have hr3 : cid < (start_pending_queue (taskletMid s cid B RS) cid).chans.length := by
    rw [spq_length _ _ hrmid]; exact hrmid
  intro cid'
  by_cases hc : cid' = cid
  · subst hc
    have hfin : (taskletOut s cid' B CL RS).chan cid'
        = { (start_pending_queue (taskletMid s cid' B RS) cid').chan cid' with
            log := ((start_pending_queue (taskletMid s cid' B RS) cid').chan cid').log ++ callbackCookies CL } := by
      unfold taskletOut
      exact chan_setChan_self _ _ _ hr3
    rw [hfin]
    exact hspq cid'
  · show RunInv ((taskletOut s cid B CL RS).chan cid')
    have hother : (taskletOut s cid B CL RS).chan cid' = s.chan cid' := by
      unfold taskletOut
      rw [chan_setChan_ne _ _ _ _ (fun hh => hc hh.symm),
        spq_chan_other _ _ hrmid _ hc, hmidother cid' hc]
    rw [hother]
    exact hinv cid'

theorem tasklet_runInv (s : Sys) (cid dt ds : Nat)
    (hr : cid < s.chans.length) (hinv : ∀ cid', RunInv (s.chan cid')) :
    ∀ cid', RunInv ((dma_do_tasklet s cid dt ds).chan cid') := by
  by_cases hst : (s.chan cid).status = .complete
  · have heq : dma_do_tasklet s cid dt ds = s := by
      unfold dma_do_tasklet
      rw [if_pos hst]
    rw [heq]
    exact hinv
  · cases hcyc : (s.chan cid).cyclicFirst with
    | some d =>
      have heq : dma_do_tasklet s cid dt ds
          = s.setChan cid { s.chan cid with
              log := (s.chan cid).log ++ (if d.hasCallback then [d.cookie] else []) } := by
        simp only [dma_do_tasklet, if_neg hst, hcyc]
      rw [heq]
      intro cid'
      by_cases hc : cid' = cid
      · subst hc
        rw [chan_setChan_self _ _ _ hr]
        exact hinv cid'
      · rw [chan_setChan_ne _ _ _ _ (fun hh => hc hh.symm)]
        exact hinv cid'
    | none =>
      rw [dma_do_tasklet_eq s cid dt ds hst hcyc]
      refine taskletOut_runInv s cid hr hinv _ _ _ ?_
      cases hrun : (s.chan cid).running with
      | nil =>
        left
        rfl
      | cons d rest =>
        right
        simp

theorem terminate_runInv (s : Sys) (cid : Nat) (hr : cid < s.chans.length)
    (hinv : ∀ cid', RunInv (s.chan cid')) :
    ∀ cid', RunInv ((mmp_pdma_terminate_all s cid).chan cid') := by
  have hr1 : cid < (s.setChan cid { s.chan cid with hwRun := false, status := Status.complete }).chans.length := by
    rw [setChan_length]; exact hr
  have heq : mmp_pdma_terminate_all s cid
      = (mmp_pdma_free_phy (s.setChan cid { s.chan cid with hwRun := false, status := Status.complete }) cid).setChan cid
        { (mmp_pdma_free_phy (s.setChan cid { s.chan cid with hwRun := false, status := Status.complete }) cid).chan cid with
          pending := []
          running := []
          bytesResidue := 0 } := rfl
  have hr2 : cid < (mmp_pdma_free_phy (s.setChan cid { s.chan cid with hwRun := false, status := Status.complete }) cid).chans.length := by
    rw [free_phy_length, setChan_length]; exact hr
  rw [heq]
  intro cid'
  by_cases hc : cid' = cid
  · subst hc
    rw [chan_setChan_self _ _ _ hr2]
    intro h
    exact absurd rfl h
  · rw [chan_setChan_ne _ _ _ _ (fun hh => hc hh.symm),
      free_phy_chan_other _ _ _ (fun hh => hc hh.symm),
      chan_setChan_ne _ _ _ _ (fun hh => hc hh.symm)]
    exact hinv cid'

/-- Counterexample for C8 as stated: pausing a channel mid-transfer
leaves its running queue non-empty but its status `DMA_PAUSED`, violating
the claimed invariant `running ≠ [] → status = InProgress`. -/
theorem claim_C8_counterexample :
    (c8Sys.chan 0).running ≠ [] ∧
    (c8Sys.chan 0).status = .inProgress ∧
    (c8Sys.chan 0).phy = some 0 ∧
    ((mmp_pdma_pause_chan c8Sys 0).chan 0).running ≠ [] ∧
    ¬ ((mmp_pdma_pause_chan c8Sys 0).chan 0).status = .inProgress := by
  decide

/-- **C8 (amended).**  `submit`, `issue_pending`, the completion tasklet
and `terminate_all` preserve the invariant `running ≠ [] → status =
InProgress ∧ phy bound`; `pause` preserves only its binding half (it
deliberately moves the status to `DMA_PAUSED` while the running queue
stays populated — the counterexample to the claim as stated); and
`issue_pending` never rebinds a channel that already holds a physical
channel, so a logical channel holds at most one physical channel at a
time. -/
theorem claim_C8_invariant :
    (∀ (c : Chan) (chain : List DescSw),
      RunInv c → RunInv (mmp_pdma_tx_submit c chain).1) ∧
    (∀ (s : Sys) (cid : Nat), cid < s.chans.length →
      (∀ cid', RunInv (s.chan cid')) →
      ∀ cid', RunInv ((start_pending_queue s cid).chan cid')) ∧
    (∀ (s : Sys) (cid dt ds : Nat), cid < s.chans.length →
      (∀ cid', RunInv (s.chan cid')) →
      ∀ cid', RunInv ((dma_do_tasklet s cid dt ds).chan cid')) ∧
    (∀ (s : Sys) (cid : Nat), cid < s.chans.length →
      (∀ cid', RunInv (s.chan cid')) →
      ∀ cid', RunInv ((mmp_pdma_terminate_all s cid).chan cid')) ∧
    (∀ (s : Sys) (cid : Nat), cid < s.chans.length →
      (∀ cid', RunInv (s.chan cid')) →
      ∀ cid', ((mmp_pdma_pause_chan s cid).chan cid').running ≠ [] →
        ((mmp_pdma_pause_chan s cid).chan cid').phy ≠ none) ∧
    (∀ (s : Sys) (cid i : Nat), cid < s.chans.length →
      (s.chan cid).phy = some i →
      ((start_pending_queue s cid).chan cid).phy = some i ∨
      ((start_pending_queue s cid).chan cid).phy = none) := by
  refine ⟨?_, ?_, ?_, ?_, ?_, ?_⟩
  · intro c chain h
    exact h
  · intro s cid hr hinv
    exact spq_runInv s cid hr hinv
  · intro s cid dt ds hr hinv
    exact tasklet_runInv s cid dt ds hr hinv
  · intro s cid hr hinv
    exact terminate_runInv s cid hr hinv
  · intro s cid hr hinv cid'
    cases hphy : (s.chan cid).phy with
    | none =>
      have heq : mmp_pdma_pause_chan s cid = s := by
        simp only [mmp_pdma_pause_chan, hphy]
      rw [heq]
      intro h
      exact (hinv cid' h).2
    | some i =>
      have heq : mmp_pdma_pause_chan s cid
          = s.setChan cid { s.chan cid with hwRun := false, status := .paused } := by
        simp only [mmp_pdma_pause_chan, hphy]
      rw [heq]
      by_cases hc : cid' = cid
      · subst hc
        rw [chan_setChan_self _ _ _ hr]
        intro h
        show (s.chan cid').phy ≠ none
        rw [hphy]
        simp
      · rw [chan_setChan_ne _ _ _ _ (fun hh => hc hh.symm)]
        intro h
        exact (hinv cid' h).2
  · intro s cid i hr hphy
    rcases spq_chan_self_cases s cid hr with heq | ⟨heq, -⟩ | ⟨j, heq, hj⟩
    · left; rw [heq, hphy]
    · right; rw [heq]
    · rcases hj with hj | hj
      · left
        rw [heq]
        exact hj.symm.trans hphy
      · rw [hphy] at hj
        exact absurd hj (by simp)

/-- Witness for C8: on the mid-transfer engine `c8Sys`, the amended
invariant holds, is preserved by `issue_pending`, and pausing keeps the
physical-channel binding. -/
theorem claim_C8_witness :
    (∀ cid', RunInv (c8Sys.chan cid')) ∧
    (∀ cid', RunInv ((start_pending_queue c8Sys 0).chan cid')) ∧
    (∀ cid', ((mmp_pdma_pause_chan c8Sys 0).chan cid').running ≠ [] →
      ((mmp_pdma_pause_chan c8Sys 0).chan cid').phy ≠ none) := by
  have hinv : ∀ cid', RunInv (c8Sys.chan cid') := by
    intro cid'
    cases cid' with
    | zero =>
      intro h
      exact ⟨by decide, by decide⟩
    | succ n =>
      intro h
      exact absurd rfl h
  exact ⟨hinv, claim_C8_invariant.2.1 c8Sys 0 (by decide) hinv,
    claim_C8_invariant.2.2.2.2.1 c8Sys 0 (by decide) hinv⟩

end Pdma
